import Mathlib

/-!
Verification of the stream-deobfuscation engine of the `lobster` repository
(`internal/extract`: decrypt.go, clientkey.go, megacloud.go).

Go strings are modelled as lists of byte values (`List Nat`).  All inputs the
engine actually handles are ASCII, where this model is exact; the only
byte/rune divergence in the source (`reverseString`, `[]rune` conversions) is
noted at the definitions concerned.  A Go runtime panic is modelled as
`Option.none` / a dedicated error value; every definition is executable so
that concrete counterexamples evaluate by `decide`.
-/

namespace Lobster

/-- Byte list of an ASCII string literal (model of a Go string constant). -/
def asciiStr (s : String) : List Nat := s.data.map Char.toNat

/-! ### Small list helpers (getD / set / interleave) -/

theorem getD_set_self {α : Type} {l : List α} {i : Nat} (v d : α)
    (h : i < l.length) : (l.set i v).getD i d = v := by
  rw [List.getD_eq_getElem (l.set i v) d (by simpa using h)]
  exact List.getElem_set_self (by simpa using h)

theorem getD_set_ne {α : Type} {l : List α} {i j : Nat} (v d : α) (h : i ≠ j) :
    (l.set i v).getD j d = l.getD j d := by
  rcases Nat.lt_or_ge j l.length with hj | hj
  · rw [List.getD_eq_getElem (l.set i v) d (by simpa using hj),
      List.getD_eq_getElem l d hj]
    exact List.getElem_set_ne h _
  · rw [List.getD_eq_getElem?_getD, List.getD_eq_getElem?_getD,
      List.getElem?_eq_none (by simpa using hj),
      List.getElem?_eq_none (by simpa using hj)]

theorem getD_set_oob {α : Type} {l : List α} {i : Nat} (v d : α)
    (h : l.length ≤ i) (j : Nat) : (l.set i v).getD j d = l.getD j d := by
  rw [List.set_eq_of_length_le h]

theorem getD_replicate_lt {α : Type} {n i : Nat} {v d : α} (h : i < n) :
    (List.replicate n v).getD i d = v := by
  rw [List.getD_eq_getElem _ d (by simpa using h)]
  exact List.getElem_replicate v _

/-- Element-count form of `List.set`, stated additively to avoid Nat truncation. -/
theorem count_set_add (l : List Nat) (i v d : Nat) (h : i < l.length) (a : Nat) :
    (l.set i v).count a + (if l.getD i d = a then 1 else 0)
      = l.count a + (if v = a then 1 else 0) := by
  induction l generalizing i with
  | nil => simp at h
  | cons x xs ih =>
    cases i with
    | zero => simp [List.count_cons]; omega
    | succ i =>
      have h' : i < xs.length := by simpa using h
      have := ih i h'
      simp only [List.set_cons_succ, List.count_cons, List.getD_cons_succ]
      omega

/-- Sum of byte counts in a cons list. -/
theorem count_eq_sum_map (l : List Nat) (v : Nat) :
    l.count v = (l.map (fun x => if x = v then 1 else 0)).sum := by
  induction l with
  | nil => simp
  | cons x xs ih => simp [List.count_cons, ih]; omega

/-! ### Key derivation (`keygen2`, decrypt.go lines 109-185) -/

/-- Model of `reverseString` (decrypt.go): rune-wise reversal; on the byte-list
model this is list reversal, exact for ASCII input. -/
def reverseString (s : List Nat) : List Nat := s.reverse

/-- Arbitrary-precision hash of `keygen2`:
`hashVal = charCode + hashVal*31 + (hashVal << 7) - hashVal` over `big.Int`. -/
def keygenHash (tempKey : List Nat) : Int :=
  tempKey.foldl (fun h c => (c : Int) + h * 31 + h * 128 - h) 0

/-- Value `lHashInt` of `keygen2`: absolute hash reduced mod `2^63 - 1`
(`big.Int.Mod` with a positive modulus is the Euclidean remainder, so the
result is already non-negative and the final abs in the Go code is a no-op). -/
def keygenL (tempKey : List Nat) : Nat :=
  (keygenHash tempKey).natAbs % 9223372036854775807

/-- Leaf-interleave loop of `keygen2`: alternate bytes of the two strings,
then append whatever remains of the longer one. -/
def interleave : List Nat → List Nat → List Nat
  | [], ys => ys
  | x :: xs, [] => x :: xs
  | x :: xs, y :: ys => x :: y :: interleave xs ys

theorem length_interleave (xs ys : List Nat) :
    (interleave xs ys).length = xs.length + ys.length := by
  induction xs generalizing ys with
  | nil => simp [interleave]
  | cons x xs ih =>
    cases ys with
    | nil => simp [interleave]
    | cons y ys => simp [interleave, ih]; omega

/-- `keygen2` from decrypt.go.  Returns `none` for the division-by-zero panic
(`lHashInt % int64(len(tempKeyStr))`) that occurs when
`megacloudKey + clientKey` is empty. -/
def keygen2 (megacloudKey clientKey : List Nat) : Option (List Nat) :=
  let tempKey := megacloudKey ++ clientKey
  if tempKey.length = 0 then none
  else
    let lHashInt := keygenL tempKey
    let xored := tempKey.map (fun c => c ^^^ 247)
    let pivot0 := lHashInt % xored.length + 5
    let pivot := if pivot0 ≥ xored.length then pivot0 % xored.length else pivot0
    let rotated := xored.drop pivot ++ xored.take pivot
    let leafStr := reverseString clientKey
    let returnKey := interleave rotated leafStr
    let limit0 := 96 + lHashInt % 33
    let limit := if limit0 > returnKey.length then returnKey.length else limit0
    some ((returnKey.take limit).map (fun c => c % 95 + 32))

/-- C2 (amended): for non-empty `serverKey ++ clientKey` the derived key has
length `min (96 + L % 33) (|serverKey| + 2*|clientKey|)`; it is never longer
than 128, lies in [96,128] whenever `|serverKey| + 2*|clientKey| ≥ 128`, and
every byte of it is printable ASCII (range [32,126]). -/
theorem keygen2_length_and_bytes (mk ck gk : List Nat)
    (h : keygen2 mk ck = some gk) :
    gk.length = min (96 + keygenL (mk ++ ck) % 33) (mk.length + ck.length + ck.length)
    ∧ gk.length ≤ 128
    ∧ (128 ≤ mk.length + ck.length + ck.length → 96 ≤ gk.length ∧ gk.length ≤ 128)
    ∧ ∀ c ∈ gk, 32 ≤ c ∧ c ≤ 126 := by
  unfold keygen2 at h
  by_cases hlen : (mk ++ ck).length = 0
  · simp [hlen] at h
  · simp only [hlen, if_neg, if_false] at h
    set L := keygenL (mk ++ ck) with hL
    set rotated := ((mk ++ ck).map (fun c => c ^^^ 247)).drop
        (if L % ((mk ++ ck).map (fun c => c ^^^ 247)).length + 5 ≥
            ((mk ++ ck).map (fun c => c ^^^ 247)).length
          then (L % ((mk ++ ck).map (fun c => c ^^^ 247)).length + 5) %
            ((mk ++ ck).map (fun c => c ^^^ 247)).length
          else L % ((mk ++ ck).map (fun c => c ^^^ 247)).length + 5) ++
        ((mk ++ ck).map (fun c => c ^^^ 247)).take
        (if L % ((mk ++ ck).map (fun c => c ^^^ 247)).length + 5 ≥
            ((mk ++ ck).map (fun c => c ^^^ 247)).length
          then (L % ((mk ++ ck).map (fun c => c ^^^ 247)).length + 5) %
            ((mk ++ ck).map (fun c => c ^^^ 247)).length
          else L % ((mk ++ ck).map (fun c => c ^^^ 247)).length + 5) with hrot
    have hrotlen : rotated.length = mk.length + ck.length := by
      simp [hrot]; omega
    have hretlen : (interleave rotated (reverseString ck)).length
        = mk.length + ck.length + ck.length := by
      rw [length_interleave, hrotlen]
      simp [reverseString]
    set returnKey := interleave rotated (reverseString ck) with hrk
    have hgk : gk = (returnKey.take
        (if 96 + L % 33 > returnKey.length then returnKey.length
          else 96 + L % 33)).map (fun c => c % 95 + 32) := by
      exact (Option.some_inj.mp h).symm
    have hlen33 : L % 33 ≤ 32 := by omega
    have hglen : gk.length
        = min (96 + L % 33) (mk.length + ck.length + ck.length) := by
      rw [hgk]
      simp only [List.length_map, List.length_take, hretlen]
      split <;> omega
    refine ⟨hglen, by omega, fun hbig => ⟨by omega, by omega⟩, ?_⟩
    intro c hc
    rw [hgk] at hc
    rcases List.mem_map.mp hc with ⟨x, _, hx⟩
    have : x % 95 ≤ 94 := by omega
    omega

/-- Witness for `keygen2_length_and_bytes` at `serverKey = "b"`,
`clientKey = "a"` (derived key `V"W`). -/
theorem keygen2_length_and_bytes_witness :
    (keygen2 [98] [97] = some [86, 34, 87])
    ∧ ([86, 34, 87] : List Nat).length
        = min (96 + keygenL [98, 97] % 33) 3
    ∧ ∀ c ∈ ([86, 34, 87] : List Nat), 32 ≤ c ∧ c ≤ 126 :=
  ⟨by decide, (keygen2_length_and_bytes [98] [97] [86, 34, 87] (by decide)).1,
    (keygen2_length_and_bytes [98] [97] [86, 34, 87] (by decide)).2.2.2⟩

/-- C2 counterexample: with `serverKey = "a"`, `clientKey = ""` (non-empty
concatenation) the derived key is the single byte `W`, of length 1 — not in
the claimed range [96,128]. -/
theorem keygen2_short_output :
    keygen2 [97] [] = some [87] ∧ ¬ 96 ≤ ([87] : List Nat).length := by
  decide

/-! ### Seeded PRNG and layer building blocks (decrypt.go lines 41-106, 188-213) -/

/-- Printable-ASCII character array `charArray` built in `decryptSrc2`
(codes 32..126, in index order). -/
def charArray95 : List Nat := (List.range 95).map (fun i => 32 + i)

/-- Decimal digits of a natural number (model of `strconv.Itoa` for the
non-negative layer indices it is called with). -/
def itoa (n : Nat) : List Nat := (Nat.toDigits 10 n).map Char.toNat

/-- 32-bit polynomial key hash shared by `reverseLayer` (via `big.Int` with a
32-bit mask each step) and `seedShuffle2`: `h = (h*31 + byte) mod 2^32`. -/
def hash31 (key : List Nat) : Nat :=
  key.foldl (fun h c => (h * 31 + c) % 4294967296) 0

/-- One LCG step shared by `seedRand` (`reverseLayer`) and `pseudoRand`
(`seedShuffle2`): `seed = (seed*1103515245 + 12345) mod 2^31`. -/
def prngNext (seed : Nat) : Nat := (seed * 1103515245 + 12345) % 2147483648

/-- Position of a character in a character array (the `charIndex` map of
`reverseLayer`; first occurrence, which agrees with the Go map because the
array has no duplicates). -/
def charIndexAux : List Nat → Nat → Nat → Option Nat
  | [], _, _ => none
  | x :: xs, i, c => if x = c then some i else charIndexAux xs (i + 1) c

/-- Lookup wrapper for `charIndexAux` starting at index 0. -/
def charIndexOf (arr : List Nat) (c : Nat) : Option Nat := charIndexAux arr 0 c

/-- Seed-shift reversal loop of `reverseLayer`: characters found in the
character array are rotated back by the next PRNG draw mod 95
(`(cIdx - randNum + 95) % 95`, written `(cIdx + 95 - randNum) % 95` to stay in
Nat); other characters pass through without consuming a draw. -/
def shiftRevAux (charArray : List Nat) : Nat → List Nat → List Nat
  | _, [] => []
  | seed, c :: rest =>
    match charIndexOf charArray c with
    | none => c :: shiftRevAux charArray seed rest
    | some cIdx =>
      let s' := prngNext seed
      charArray.getD ((cIdx + 95 - s' % 95) % 95) 0 :: shiftRevAux charArray s' rest

/-- Fisher-Yates fold of `seedShuffle2`: for each index `i` (descending),
draw `j = rand(i+1)` and swap positions `i` and `j`. -/
def fyFold (arr : List Nat) (seed : Nat) (idxs : List Nat) : List Nat × Nat :=
  idxs.foldl
    (fun acc i =>
      let s' := prngNext acc.2
      let j := s' % (i + 1)
      ((acc.1.set i (acc.1.getD j 0)).set j (acc.1.getD i 0), s'))
    (arr, seed)

/-- `seedShuffle2` from decrypt.go: shuffle a copy of the character array with
the LCG seeded from `hash31 ikey`, visiting indices `len-1` down to `1`. -/
def seedShuffle2 (arr ikey : List Nat) : List Nat :=
  (fyFold arr (hash31 ikey) (((List.range arr.length).drop 1).reverse)).1

/-- Association lookup modelling a Go `map` built from key/value pairs (first
match; the maps in `reverseLayer` have pairwise-distinct keys, where first
and last occurrence agree). -/
def assocFind (pairs : List (Nat × Nat)) (c : Nat) : Option Nat :=
  (pairs.find? (fun p => p.1 = c)).map Prod.snd

/-- Substitution application loop of `reverseLayer`: replace characters found
in the map, pass the rest through unchanged. -/
def substitute (pairs : List (Nat × Nat)) (text : List Nat) : List Nat :=
  text.map (fun c => (assocFind pairs c).getD c)

/-! ### Columnar transposition (`columnarCipher2`, decrypt.go lines 215-273) -/

/-- Stable insertion of a `(char, idx)` pair: place it after every pair with a
smaller-or-equal character code (exactly the order the insertion sort in
`columnarCipher2` produces). -/
def insertStable (x : Nat × Nat) : List (Nat × Nat) → List (Nat × Nat)
  | [] => [x]
  | y :: ys => if y.1 ≤ x.1 then y :: insertStable x ys else x :: y :: ys

/-- Key map of `columnarCipher2` (`keyMap[i] = {char: ikey[i], idx: i}`)
sorted stably by character code. -/
def sortedKeyMap (ikey : List Nat) : List (Nat × Nat) :=
  (ikey.zip (List.range ikey.length)).foldl (fun acc x => insertStable x acc) []

/-- Grid cell write `cipher[r][c] = v` on a list-of-rows grid. -/
def setCell (g : List (List Nat)) (r c v : Nat) : List (List Nat) :=
  g.set r ((g.getD r []).set c v)

/-- Grid cell read with defaults (rows are always present and of full width
in the uses below). -/
def cellD (g : List (List Nat)) (r c : Nat) : Nat := (g.getD r []).getD c 0

/-- Body of the inner fill loop of `columnarCipher2`: at row `r` of column
`idx`, write the next source character if any remains. -/
def fillStep (src : List Nat) (idx : Nat) (acc2 : List (List Nat) × Nat)
    (r : Nat) : List (List Nat) × Nat :=
  if acc2.2 < src.length then (setCell acc2.1 r idx (src.getD acc2.2 0), acc2.2 + 1)
  else acc2

/-- Inner fill loop of `columnarCipher2`: walk rows `0..R-1` of one column,
writing consecutive source characters while any remain. -/
def fillColumn (src : List Nat) (R idx : Nat) (acc : List (List Nat) × Nat) :
    List (List Nat) × Nat :=
  (List.range R).foldl (fillStep src idx) acc

/-- `columnarCipher2` from decrypt.go: with `C = len(ikey)` columns and
`R = ceil(len(src)/C)` rows, fill a space-initialised R×C grid column by
column in stable sorted key order with the characters of `src`, then read the
grid row by row.  An empty key returns the input unchanged. -/
def columnarCipher2 (src ikey : List Nat) : List Nat :=
  if ikey.length = 0 then src
  else
    let C := ikey.length
    let R := (src.length + C - 1) / C
    let init : List (List Nat) := List.replicate R (List.replicate C 32)
    let filled := (sortedKeyMap ikey).foldl
      (fun acc ki => fillColumn src R ki.2 acc) (init, 0)
    filled.1.flatten

/-! ### One reverse layer and the full decrypt (`decryptSrc2`) -/

/-- `reverseLayer` from decrypt.go: append the decimal layer index to the key,
then undo the seed shift, the columnar transposition and the substitution, in
that order.  The substitution map inverts the Fisher-Yates shuffle:
`charMap[subValues[i]] = charArray[i]`. -/
def reverseLayer (decSrc genKey : List Nat) (iteration : Nat)
    (charArray : List Nat) : List Nat :=
  let layerKey := genKey ++ itoa iteration
  let shifted := shiftRevAux charArray (hash31 layerKey) decSrc
  let transposed := columnarCipher2 shifted layerKey
  let subValues := seedShuffle2 charArray layerKey
  substitute (subValues.zip charArray) transposed

/-- Base64 alphabet of `atob` (decrypt.go). -/
def base64Chars : List Nat := asciiStr "ABCDEFGHIJKLMNOPQRSTUVWXYZabcdefghijklmnopqrstuvwxyz0123456789+/"

/-- Index of a byte in the base64 alphabet (the `lookup` map of `atob`). -/
def b64Index (c : Nat) : Option Nat := charIndexOf base64Chars c

/-- Value and found-flag of one byte inside a quad of `atob`: `=` and
unmapped bytes contribute value 0 without raising the `count`. -/
def b64Val (q : List Nat) (j : Nat) : Nat × Bool :=
  match q.get? j with
  | none => (0, false)
  | some c =>
    if c = 61 then (0, false)
    else
      match b64Index c with
      | none => (0, false)
      | some v => (v, true)

/-- Decode one (at most 4 byte) group of `atob`: `count` is one past the last
position whose byte was found in the alphabet; `count ≥ 2/3/4` gate the three
output bytes, which are reassembled from 6-bit values. -/
def quadDecode (q : List Nat) : List Nat :=
  let v0 := b64Val q 0
  let v1 := b64Val q 1
  let v2 := b64Val q 2
  let v3 := b64Val q 3
  let count : Nat :=
    if v3.2 then 4 else if v2.2 then 3 else if v1.2 then 2 else if v0.2 then 1 else 0
  (if 2 ≤ count then [(v0.1 * 4 + v1.1 / 16) % 256] else [])
    ++ (if 3 ≤ count then [(v1.1 % 16 * 16 + v2.1 / 4) % 256] else [])
    ++ (if 4 ≤ count then [(v2.1 % 4 * 64 + v3.1) % 256] else [])

/-- Quad-splitting loop of `atob` (after filtering and padding the input its
length is a multiple of 4; shorter tails are handled like the Go loop's
`i+j < len` guard). -/
def atobQuads : List Nat → List Nat
  | [] => []
  | [a] => quadDecode [a]
  | [a, b] => quadDecode [a, b]
  | [a, b, c] => quadDecode [a, b, c]
  | a :: b :: c :: d :: rest => quadDecode [a, b, c, d] ++ atobQuads rest

/-- `atob` from decrypt.go: drop `=`, CR, LF and spaces, pad with `=` to a
multiple of 4, then decode quad by quad; unmapped bytes are treated as value
0 and never cause a failure. -/
def atob (s : List Nat) : List Nat :=
  let encoded := s.filter (fun c => ¬(c = 61 ∨ c = 10 ∨ c = 13 ∨ c = 32))
  let padded :=
    if encoded.length % 4 = 0 then encoded
    else encoded ++ List.replicate (4 - encoded.length % 4) 61
  atobQuads padded

/-- Model of `strconv.Atoi` for short inputs: optional sign, then one or more
decimal digits; no overflow can occur at the 4-character call site. -/
def goAtoi (s : List Nat) : Option Int :=
  match s with
  | [] => none
  | c :: rest =>
    let signed := c = 45
    let digits := if c = 45 ∨ c = 43 then rest else s
    if digits = [] then none
    else if digits.all (fun d => 48 ≤ d ∧ d ≤ 57) then
      let n : Nat := digits.foldl (fun a d => a * 10 + (d - 48)) 0
      some (if signed then -(n : Int) else (n : Int))
    else none

/-- Framed-payload extraction at the end of `decryptSrc2`: the first 4
characters are parsed as a decimal length `n`; parse failure or `4+n` beyond
the text yields `""`; a negative `n` slips past that guard and the slice
`decSrc[4 : 4+n]` panics (`none`); otherwise the payload `decSrc[4 : 4+n]`
is returned. -/
def extractFramed (decSrc : List Nat) : Option (List Nat) :=
  if decSrc.length < 4 then some []
  else
    match goAtoi (decSrc.take 4) with
    | none => some []
    | some n =>
      if 4 + n > (decSrc.length : Int) then some []
      else if n < 0 then none
      else some ((decSrc.drop 4).take n.toNat)

/-- `decryptSrc2` from decrypt.go: derive the key, base64-decode the payload,
undo layers 3, 2, 1 in that order, then cut out the length-framed payload.
`none` models a Go runtime panic (keygen division by zero, or the negative
slice length in the framing step). -/
def decryptSrc2 (src clientKey megacloudKey : List Nat) : Option (List Nat) :=
  match keygen2 megacloudKey clientKey with
  | none => none
  | some genKey =>
    let decSrc := [3, 2, 1].foldl
      (fun t i => reverseLayer t genKey i charArray95) (atob src)
    extractFramed decSrc

/-! ### Properties of atob, the framing step and decryptSrc2 (C6, C1, C4, C5) -/

/-- C6: the base64 decoder is a total function (it can never reject its
input); decoding `""` gives `""`, `"SGVsbG8="` gives `"Hello"`, the unpadded
`"SGVsbG8"` and `"YQ"` are tolerated, and an unmapped byte (`*`) is treated
as value 0 rather than causing a failure. -/
theorem atob_lenient :
    atob [] = []
    ∧ atob (asciiStr "SGVsbG8=") = asciiStr "Hello"
    ∧ atob (asciiStr "SGVsbG8") = asciiStr "Hello"
    ∧ atob (asciiStr "YQ") = asciiStr "a"
    ∧ atob (asciiStr "SGVsbG8*") = asciiStr "Hello" := by decide

/-- C1 counterexample: with `clientKey` and `serverKey` both empty,
`decryptSrc2` panics (modelled `none`): `keygen2` divides by the length of
the empty combined key. -/
theorem decryptSrc2_empty_keys_panic : decryptSrc2 [] [] [] = none := by decide

/-- C1 (amended): `decryptSrc2` returns a string for every payload provided
the combined key is non-empty (so `keygen2` succeeds) and the first four
characters of the post-layer text do not parse as a negative integer (the
two panic paths exhibited by the counterexamples). -/
theorem decryptSrc2_total :
    (∀ mk ck : List Nat, mk ++ ck ≠ [] → (keygen2 mk ck).isSome = true)
    ∧ (∀ src ck mk gk : List Nat, keygen2 mk ck = some gk →
        (∀ n : Int,
          goAtoi (([3, 2, 1].foldl
            (fun t i => reverseLayer t gk i charArray95) (atob src)).take 4)
            = some n → 0 ≤ n) →
        (decryptSrc2 src ck mk).isSome = true) := by
  constructor
  · intro mk ck h
    have hlen : (mk ++ ck).length ≠ 0 :=
      fun hz => h (List.eq_nil_of_length_eq_zero hz)
    cases hk : keygen2 mk ck with
    | none =>
      exfalso
      unfold keygen2 at hk
      rw [if_neg hlen] at hk
      exact Option.noConfusion hk
    | some gk => rfl
  · intro src ck mk gk hk hpos
    unfold decryptSrc2
    rw [hk]
    simp only []
    set t := [3, 2, 1].foldl (fun t i => reverseLayer t gk i charArray95) (atob src)
      with ht
    unfold extractFramed
    by_cases h4 : t.length < 4
    · simp [h4]
    · simp only [h4, if_neg, if_false]
      cases hA : goAtoi (t.take 4) with
      | none => simp
      | some n =>
        have hn : 0 ≤ n := hpos n hA
        by_cases hgt : 4 + n > (t.length : Int)
        · simp [hgt]
        · simp [hgt, not_lt.mpr hn, Int.not_lt.mpr hn]

/-- Witness for `decryptSrc2_total` at `clientKey = "a"`, empty serverKey and
empty payload. -/
theorem decryptSrc2_total_witness :
    keygen2 [] [97] = some [87, 34] ∧ (decryptSrc2 [] [97] []).isSome = true :=
  ⟨by decide,
    decryptSrc2_total.2 [] [97] [] [87, 34] (by decide)
      (fun n h => by
        rw [show goAtoi (([3, 2, 1].foldl
            (fun t i => reverseLayer t [87, 34] i charArray95)
            (atob [])).take 4) = none from by decide] at h
        exact Option.noConfusion h)⟩

/-- C4: `decryptSrc2` applies the reverse layers strictly in the order 3, 2,
1, and each layer, keyed by the derived key with the decimal layer index
appended, undoes the shift first, then the columnar transposition, then the
substitution. -/
theorem decryptSrc2_layer_structure (src ck mk gk : List Nat)
    (hk : keygen2 mk ck = some gk) :
    decryptSrc2 src ck mk
      = extractFramed
          (reverseLayer
            (reverseLayer (reverseLayer (atob src) gk 3 charArray95)
              gk 2 charArray95)
            gk 1 charArray95)
    ∧ ∀ (t : List Nat) (i : Nat),
        reverseLayer t gk i charArray95
          = substitute ((seedShuffle2 charArray95 (gk ++ itoa i)).zip charArray95)
              (columnarCipher2
                (shiftRevAux charArray95 (hash31 (gk ++ itoa i)) t)
                (gk ++ itoa i)) := by
  constructor
  · unfold decryptSrc2
    rw [hk]
    rfl
  · intro t i
    rfl

/-- Witness for `decryptSrc2_layer_structure` at `clientKey = "a"`, empty
serverKey, empty payload. -/
theorem decryptSrc2_layer_structure_witness :
    keygen2 [] [97] = some [87, 34]
    ∧ decryptSrc2 [] [97] []
        = extractFramed
            (reverseLayer
              (reverseLayer (reverseLayer (atob []) [87, 34] 3 charArray95)
                [87, 34] 2 charArray95)
              [87, 34] 1 charArray95) :=
  ⟨by decide, (decryptSrc2_layer_structure [] [97] [] [87, 34] (by decide)).1⟩

set_option maxRecDepth 40000 in
/-- C5 counterexample: for payload `"bjBCMA=="` with `clientKey = "a"` and
`serverKey = "b"` the post-layer text is exactly `"-123"`: the 4-character
parse succeeds with a negative value and `4+n` does not exceed the length,
yet `decryptSrc2` panics on the negative slice bound (modelled `none`)
instead of returning a string. -/
theorem decryptSrc2_negative_frame_panic :
    keygen2 (asciiStr "b") (asciiStr "a") = some [86, 34, 87]
    ∧ [3, 2, 1].foldl (fun t i => reverseLayer t [86, 34, 87] i charArray95)
        (atob (asciiStr "bjBCMA==")) = asciiStr "-123"
    ∧ decryptSrc2 (asciiStr "bjBCMA==") (asciiStr "a") (asciiStr "b") = none := by
  decide

/-- Empty text stays empty under `columnarCipher2` (the row count is 0). -/
theorem columnarCipher2_nil (k : List Nat) : columnarCipher2 [] k = [] := by
  unfold columnarCipher2
  by_cases hk0 : k.length = 0
  · simp [hk0]
  · rw [if_neg hk0]
    have hR : (([] : List Nat).length + k.length - 1) / k.length = 0 := by
      simp only [List.length_nil, Nat.zero_add]
      exact Nat.div_eq_of_lt (by omega)
    simp only [hR, List.replicate_zero]
    have hfix : ∀ (l : List (Nat × Nat)) (acc : List (List Nat) × Nat),
        l.foldl (fun acc ki => fillColumn [] 0 ki.2 acc) acc = acc := by
      intro l
      induction l with
      | nil => intro acc; rfl
      | cons x xs ih => intro acc; exact ih (fillColumn [] 0 x.2 acc)
    rw [hfix]
    rfl

/-- Empty text stays empty under `reverseLayer`. -/
theorem reverseLayer_nil (gk : List Nat) (i : Nat) (ca : List Nat) :
    reverseLayer [] gk i ca = [] := by
  show substitute ((seedShuffle2 ca (gk ++ itoa i)).zip ca)
      (columnarCipher2 (shiftRevAux ca (hash31 (gk ++ itoa i)) []) (gk ++ itoa i))
      = []
  rw [show shiftRevAux ca (hash31 (gk ++ itoa i)) [] = [] from rfl,
    columnarCipher2_nil]
  rfl

/-- C5 (amended): after the three reverse layers the first 4 characters are
parsed as a decimal integer `n`; the empty string is returned exactly when
the text is shorter than 4, the parse fails, or `4+n` exceeds the length; for
`0 ≤ n` the framed substring `text[4:4+n]` is returned, while a parsed
negative `n` escapes the guard and panics.  `decryptSrc2("" , ck, mk)`
returns `""` whenever the combined key is non-empty. -/
theorem extractFramed_behavior :
    (∀ ck mk : List Nat, mk ++ ck ≠ [] → decryptSrc2 [] ck mk = some [])
    ∧ (∀ text : List Nat,
        (text.length < 4 ∨ goAtoi (text.take 4) = none
          ∨ ∃ n : Int, goAtoi (text.take 4) = some n ∧ (text.length : Int) < 4 + n) →
        extractFramed text = some [])
    ∧ (∀ (text : List Nat) (n : Int), goAtoi (text.take 4) = some n → 0 ≤ n →
        4 + n ≤ (text.length : Int) →
        extractFramed text = some ((text.drop 4).take n.toNat))
    ∧ (∀ (text : List Nat) (n : Int), 4 ≤ text.length →
        goAtoi (text.take 4) = some n → n < 0 → extractFramed text = none) := by
  refine ⟨?_, ?_, ?_, ?_⟩
  · intro ck mk h
    have hlen : (mk ++ ck).length ≠ 0 :=
      fun hz => h (List.eq_nil_of_length_eq_zero hz)
    unfold decryptSrc2
    cases hk : keygen2 mk ck with
    | none =>
      exfalso
      unfold keygen2 at hk
      rw [if_neg hlen] at hk
      exact Option.noConfusion hk
    | some gk =>
      show extractFramed ([3, 2, 1].foldl
        (fun t i => reverseLayer t gk i charArray95) (atob [])) = some []
      have hpipe : [3, 2, 1].foldl
          (fun t i => reverseLayer t gk i charArray95) (atob []) = [] := by
        show [3, 2, 1].foldl (fun t i => reverseLayer t gk i charArray95) [] = []
        simp only [List.foldl_cons, List.foldl_nil]
        rw [reverseLayer_nil, reverseLayer_nil, reverseLayer_nil]
      rw [hpipe]
      rfl
  · intro text h
    unfold extractFramed
    rcases h with h4 | hA | ⟨n, hA, hlt⟩
    · simp [h4]
    · by_cases h4 : text.length < 4
      · simp [h4]
      · simp [h4, hA]
    · by_cases h4 : text.length < 4
      · simp [h4]
      · simp only [h4, if_neg, if_false, hA]
        rw [if_pos (by omega)]
  · intro text n hA hn hle
    unfold extractFramed
    have h4 : ¬ text.length < 4 := by
      by_contra h4
      have : (text.length : Int) < 4 := by exact_mod_cast h4
      omega
    simp only [h4, if_neg, if_false, hA]
    rw [if_neg (by omega), if_neg (by omega)]
  · intro text n h4 hA hn
    have h4' : ¬ text.length < 4 := by omega
    simp only [extractFramed, h4', if_neg, if_false, hA]
    rw [if_neg (by omega), if_pos hn]

/-- Witness for `extractFramed_behavior`: framed text `"0005Hello"` yields
`"Hello"`, and the `""`-signal case at text `"xxxx"`. -/
theorem extractFramed_behavior_witness :
    extractFramed (asciiStr "0005Hello") = some (asciiStr "Hello")
    ∧ extractFramed (asciiStr "xxxx") = some []
    ∧ decryptSrc2 [] [97] [] = some [] :=
  ⟨by
    have := extractFramed_behavior.2.2.1 (asciiStr "0005Hello") 5
      (by decide) (by decide) (by decide)
    simpa using this,
    extractFramed_behavior.2.1 (asciiStr "xxxx") (Or.inr (Or.inl (by decide))),
    extractFramed_behavior.1 [97] [] (by decide)⟩

/-! ### Grid lemmas for `columnarCipher2` -/

theorem length_setCell (g : List (List Nat)) (r c v : Nat) :
    (setCell g r c v).length = g.length := List.length_set ..

theorem rowlen_setCell (g : List (List Nat)) (r c v r' : Nat) :
    ((setCell g r c v).getD r' []).length = (g.getD r' []).length := by
  unfold setCell
  by_cases hr : r' = r
  · subst hr
    by_cases hrl : r' < g.length
    · rw [getD_set_self _ _ hrl, List.length_set]
    · rw [getD_set_oob _ _ (Nat.le_of_not_lt hrl)]
  · rw [getD_set_ne _ _ (fun h => hr h.symm)]

theorem cellD_setCell_self (g : List (List Nat)) {r c : Nat} (v : Nat)
    (hr : r < g.length) (hc : c < (g.getD r []).length) :
    cellD (setCell g r c v) r c = v := by
  unfold cellD setCell
  rw [getD_set_self _ _ hr, getD_set_self _ _ hc]

theorem cellD_setCell_ne (g : List (List Nat)) {r c r' c' : Nat} (v : Nat)
    (h : r' ≠ r ∨ c' ≠ c) : cellD (setCell g r c v) r' c' = cellD g r' c' := by
  unfold cellD setCell
  by_cases hr : r' = r
  · subst hr
    have hc : c' ≠ c := h.resolve_left (fun hne => hne rfl)
    by_cases hrl : r' < g.length
    · rw [getD_set_self _ _ hrl, getD_set_ne _ _ (fun hx => hc hx.symm)]
    · rw [getD_set_oob _ _ (Nat.le_of_not_lt hrl)]
  · rw [getD_set_ne _ _ (fun hx => hr hx.symm)]

/-- Behaviour of the inner fill loop over the first `m` rows of column `idx`:
the source cursor advances to `min (si+m) (len src)`, row lengths are kept,
other columns are untouched, and row `r < m` of the column receives
`src[si+r]` when that index exists. -/
theorem fillColumn_spec (src : List Nat) (idx : Nat) :
    ∀ (m : Nat) (g : List (List Nat)) (si : Nat),
    si ≤ src.length → m ≤ g.length →
    (∀ r', r' < g.length → idx < (g.getD r' []).length) →
    ((List.range m).foldl (fillStep src idx) (g, si)).2 = min (si + m) src.length
    ∧ ((List.range m).foldl (fillStep src idx) (g, si)).1.length = g.length
    ∧ (∀ r', (((List.range m).foldl (fillStep src idx) (g, si)).1.getD r' []).length
        = (g.getD r' []).length)
    ∧ (∀ r' c', c' ≠ idx →
        cellD ((List.range m).foldl (fillStep src idx) (g, si)).1 r' c'
          = cellD g r' c')
    ∧ (∀ r', m ≤ r' →
        cellD ((List.range m).foldl (fillStep src idx) (g, si)).1 r' idx
          = cellD g r' idx)
    ∧ (∀ r', r' < m →
        cellD ((List.range m).foldl (fillStep src idx) (g, si)).1 r' idx
          = if si + r' < src.length then src.getD (si + r') 0
            else cellD g r' idx) := by
  intro m
  induction m with
  | zero =>
    intro g si hsi _ _
    refine ⟨by simpa using Nat.min_eq_left hsi, rfl, fun _ => rfl,
      fun _ _ _ => rfl, fun _ _ => rfl, fun r' hr' => absurd hr' (Nat.not_lt_zero r')⟩
  | succ m ih =>
    intro g si hsi hm hidx
    obtain ⟨h2, hlen, hrows, hoth, hge, hlt⟩ :=
      ih g si hsi (Nat.le_of_succ_le hm) hidx
    have hsplit : (List.range (m + 1)).foldl (fillStep src idx) (g, si)
        = fillStep src idx ((List.range m).foldl (fillStep src idx) (g, si)) m := by
      rw [List.range_succ, List.foldl_append, List.foldl_cons, List.foldl_nil]
    set mid := (List.range m).foldl (fillStep src idx) (g, si) with hmid
    have hmlt : m < g.length := hm
    by_cases hfull : mid.2 < src.length
    · have hstep : fillStep src idx mid m
          = (setCell mid.1 m idx (src.getD mid.2 0), mid.2 + 1) := by
        unfold fillStep
        rw [if_pos hfull]
      have hcond : si + m < src.length := by
        rw [h2] at hfull
        omega
      have hmid2 : mid.2 = si + m := by
        rw [h2]
        omega
      rw [hsplit, hstep]
      refine ⟨by simp [hmid2]; omega, by simp [length_setCell, hlen],
        fun r' => by rw [rowlen_setCell]; exact hrows r', ?_, ?_, ?_⟩
      · intro r' c' hc'
        simp only [cellD_setCell_ne _ _ (Or.inr hc')]
        exact hoth r' c' hc'
      · intro r' hr'
        simp only [cellD_setCell_ne _ _ (Or.inl (by omega : r' ≠ m))]
        exact hge r' (by omega)
      · intro r' hr'
        rcases Nat.lt_or_ge r' m with hcase | hcase
        · simp only [cellD_setCell_ne _ _ (Or.inl (by omega : r' ≠ m))]
          exact hlt r' hcase
        · have hrm : r' = m := by omega
          subst hrm
          rw [cellD_setCell_self _ _ (by rw [hlen]; exact hmlt)
            (by rw [hrows]; exact hidx r' hmlt), hmid2, if_pos hcond]
    · have hstep : fillStep src idx mid m = mid := by
        unfold fillStep
        rw [if_neg hfull]
      have hcond : ¬ si + m < src.length := by
        rw [h2] at hfull
        omega
      rw [hsplit, hstep]
      refine ⟨by rw [h2]; omega, hlen, hrows, hoth, fun r' hr' => hge r' (by omega), ?_⟩
      intro r' hr'
      rcases Nat.lt_or_ge r' m with hcase | hcase
      · rw [hlt r' hcase]
      · have hrm : r' = m := by omega
        subst hrm
        rw [hge r' (Nat.le_refl r'), if_neg hcond]

/-- Behaviour of the outer fold of `columnarCipher2` over a list of sorted
`(char, idx)` pairs with distinct column indices `< C`: the `j`-th processed
column receives the characters `src[siâ‚€ + j*R + r]` row by row, columns not in
the list are untouched. -/
theorem colFold_spec (src : List Nat) (R C : Nat) :
    ∀ (sm : List (Nat × Nat)) (g : List (List Nat)) (si : Nat),
    si ≤ src.length → g.length = R →
    (∀ r', r' < R → (g.getD r' []).length = C) →
    (∀ ki ∈ sm, ki.2 < C) →
    (sm.map Prod.snd).Nodup →
    ((sm.foldl (fun acc ki => fillColumn src R ki.2 acc) (g, si)).2
        = min (si + sm.length * R) src.length)
    ∧ (sm.foldl (fun acc ki => fillColumn src R ki.2 acc) (g, si)).1.length = R
    ∧ (∀ r', ((sm.foldl (fun acc ki => fillColumn src R ki.2 acc) (g, si)).1.getD
        r' []).length = (g.getD r' []).length)
    ∧ (∀ r' c', c' ∉ sm.map Prod.snd →
        cellD (sm.foldl (fun acc ki => fillColumn src R ki.2 acc) (g, si)).1 r' c'
          = cellD g r' c')
    ∧ (∀ j r', j < sm.length → r' < R →
        cellD (sm.foldl (fun acc ki => fillColumn src R ki.2 acc) (g, si)).1 r'
            (sm.getD j (0, 0)).2
          = if si + j * R + r' < src.length then src.getD (si + j * R + r') 0
            else cellD g r' (sm.getD j (0, 0)).2) := by
  intro sm
  induction sm with
  | nil =>
    intro g si hsi hg _ _ _
    exact ⟨by simpa using Nat.min_eq_left hsi, hg, fun _ => rfl,
      fun _ _ _ => rfl, fun j _ hj _ => absurd hj (Nat.not_lt_zero j)⟩
  | cons ki sm' ih =>
    intro g si hsi hg hrows hki hnd
    have hki0 : ki.2 < C := hki ki (List.mem_cons_self ki sm')
    have hnd' : (sm'.map Prod.snd).Nodup := by
      rw [List.map_cons] at hnd
      exact hnd.of_cons
    have hki' : ∀ k ∈ sm', k.2 < C := fun k hk => hki k (List.mem_cons_of_mem ki hk)
    have hnotmem : ki.2 ∉ sm'.map Prod.snd := by
      rw [List.map_cons] at hnd
      exact (List.nodup_cons.mp hnd).1
    simp only [List.foldl_cons]
    set mid := fillColumn src R ki.2 (g, si) with hmiddef
    obtain ⟨f2', flen', frows', foth', fge', flt'⟩ :=
      fillColumn_spec src ki.2 R g si hsi (Nat.le_of_eq hg.symm)
        (fun r' hr' => by rw [hrows r' (hg ▸ hr')]; exact hki0)
    have f2 : mid.2 = min (si + R) src.length := f2'
    have flen : mid.1.length = g.length := flen'
    have frows : ∀ r', (mid.1.getD r' []).length = (g.getD r' []).length := frows'
    have foth : ∀ r' c', c' ≠ ki.2 → cellD mid.1 r' c' = cellD g r' c' := foth'
    have flt : ∀ r', r' < R →
        cellD mid.1 r' ki.2
          = if si + r' < src.length then src.getD (si + r') 0
            else cellD g r' ki.2 := flt'
    have hsi1 : mid.2 ≤ src.length := by
      rw [f2]
      omega
    have hglen1 : mid.1.length = R := by rw [flen, hg]
    have hrows1 : ∀ r', r' < R → (mid.1.getD r' []).length = C := by
      intro r' hr'
      rw [frows r']
      exact hrows r' hr'
    obtain ⟨o2', olen', orows', ooth', ocell'⟩ :=
      ih mid.1 mid.2 hsi1 hglen1 hrows1 hki' hnd'
    have o2 : (sm'.foldl (fun acc ki => fillColumn src R ki.2 acc) mid).2
        = min (mid.2 + sm'.length * R) src.length := o2'
    have olen : (sm'.foldl (fun acc ki => fillColumn src R ki.2 acc) mid).1.length
        = R := olen'
    have orows : ∀ r',
        ((sm'.foldl (fun acc ki => fillColumn src R ki.2 acc) mid).1.getD r' []).length
          = (mid.1.getD r' []).length := orows'
    have ooth : ∀ r' c', c' ∉ sm'.map Prod.snd →
        cellD (sm'.foldl (fun acc ki => fillColumn src R ki.2 acc) mid).1 r' c'
          = cellD mid.1 r' c' := ooth'
    have ocell : ∀ j r', j < sm'.length → r' < R →
        cellD (sm'.foldl (fun acc ki => fillColumn src R ki.2 acc) mid).1 r'
            (sm'.getD j (0, 0)).2
          = if mid.2 + j * R + r' < src.length
            then src.getD (mid.2 + j * R + r') 0
            else cellD mid.1 r' (sm'.getD j (0, 0)).2 := ocell'
    refine ⟨?_, olen, ?_, ?_, ?_⟩
    · rw [o2, f2]
      simp only [List.length_cons]
      have hmul : (sm'.length + 1) * R = sm'.length * R + R := by ring
      omega
    · intro r'
      rw [orows r', frows r']
    · intro r' c' hc'
      rw [List.map_cons] at hc'
      have hc1 : c' ≠ ki.2 := fun h => hc' (h ▸ List.mem_cons_self _ _)
      have hc2 : c' ∉ sm'.map Prod.snd := fun h => hc' (List.mem_cons_of_mem _ h)
      rw [ooth r' c' hc2, foth r' c' hc1]
    · intro j r' hj hr'
      cases j with
      | zero =>
        simp only [List.getD_cons_zero]
        rw [ooth r' ki.2 hnotmem, flt r' hr']
        simp only [Nat.zero_mul, Nat.add_zero]
      | succ j =>
        simp only [List.getD_cons_succ]
        have hjlen : j < sm'.length := by simpa using hj
        rw [ocell j r' hjlen hr']
        have hne : (sm'.getD j (0, 0)).2 ≠ ki.2 := by
          intro h
          apply hnotmem
          rw [← h, List.getD_eq_getElem sm' (0, 0) hjlen]
          exact List.mem_map_of_mem Prod.snd (sm'.getElem_mem hjlen)
        have hfoth := foth r' (sm'.getD j (0, 0)).2 hne
        have hmul : (j + 1) * R = j * R + R := by ring
        rcases Nat.lt_or_ge (si + R) src.length with hcase | hcase
        · have hmid2 : mid.2 = si + R := by rw [f2]; omega
          rw [hmid2]
          have harith : si + R + j * R + r' = si + (j + 1) * R + r' := by
            rw [hmul]
            ring
          rw [harith, hfoth]
        · have hmid2 : mid.2 = src.length := by rw [f2]; omega
          rw [hmid2, if_neg (by omega), if_neg (by omega), hfoth]

/-! ### The sorted key map is a permutation of the indexed key -/

theorem insertStable_perm (x : Nat × Nat) (l : List (Nat × Nat)) :
    (insertStable x l).Perm (x :: l) := by
  induction l with
  | nil => exact List.Perm.refl _
  | cons y ys ih =>
    unfold insertStable
    by_cases hle : y.1 ≤ x.1
    · rw [if_pos hle]
      exact (ih.cons y).trans (List.Perm.swap x y ys)
    · rw [if_neg hle]

theorem foldl_insertStable_perm :
    ∀ (l acc : List (Nat × Nat)),
      (l.foldl (fun acc x => insertStable x acc) acc).Perm (l ++ acc) := by
  intro l
  induction l with
  | nil => intro acc; simp
  | cons x xs ih =>
    intro acc
    simp only [List.foldl_cons]
    refine (ih (insertStable x acc)).trans ?_
    refine ((insertStable_perm x acc).append_left xs).trans ?_
    exact List.perm_middle

theorem sortedKeyMap_perm (ikey : List Nat) :
    (sortedKeyMap ikey).Perm (ikey.zip (List.range ikey.length)) := by
  have := foldl_insertStable_perm (ikey.zip (List.range ikey.length)) []
  simpa [sortedKeyMap] using this

theorem sortedKeyMap_snd_perm (ikey : List Nat) :
    ((sortedKeyMap ikey).map Prod.snd).Perm (List.range ikey.length) := by
  have h := (sortedKeyMap_perm ikey).map Prod.snd
  rwa [List.map_snd_zip _ _ (by simp)] at h

theorem sortedKeyMap_length (ikey : List Nat) :
    (sortedKeyMap ikey).length = ikey.length := by
  have := (sortedKeyMap_snd_perm ikey).length_eq
  simpa using this

theorem sortedKeyMap_snd_nodup (ikey : List Nat) :
    ((sortedKeyMap ikey).map Prod.snd).Nodup :=
  (sortedKeyMap_snd_perm ikey).nodup_iff.mpr (List.nodup_range _)

theorem sortedKeyMap_snd_lt (ikey : List Nat) :
    ∀ ki ∈ sortedKeyMap ikey, ki.2 < ikey.length := by
  intro ki hki
  have : ki.2 ∈ (sortedKeyMap ikey).map Prod.snd := List.mem_map_of_mem _ hki
  have := (sortedKeyMap_snd_perm ikey).mem_iff.mp this
  simpa using this

theorem sortedKeyMap_snd_surj (ikey : List Nat) :
    ∀ c, c < ikey.length → ∃ j, j < (sortedKeyMap ikey).length
      ∧ ((sortedKeyMap ikey).getD j (0, 0)).2 = c := by
  intro c hc
  have hmem : c ∈ (sortedKeyMap ikey).map Prod.snd :=
    (sortedKeyMap_snd_perm ikey).mem_iff.mpr (List.mem_range.mpr hc)
  rcases List.mem_iff_getElem.mp hmem with ⟨j, hj, hval⟩
  refine ⟨j, by simpa using hj, ?_⟩
  rw [List.getD_eq_getElem _ _ (by simpa using hj)]
  rw [List.getElem_map] at hval
  exact hval

/-! ### Sum bookkeeping for the permutation property of `columnarCipher2` -/

theorem sum_map_add_distrib (l : List Nat) (f g : Nat → Nat) :
    (l.map (fun x => f x + g x)).sum = (l.map f).sum + (l.map g).sum := by
  induction l with
  | nil => rfl
  | cons x xs ih => simp [ih]; omega

theorem sum_map_swap (l1 l2 : List Nat) (f : Nat → Nat → Nat) :
    (l1.map (fun a => (l2.map (f a)).sum)).sum
      = (l2.map (fun b => (l1.map (fun a => f a b)).sum)).sum := by
  induction l1 with
  | nil => simp
  | cons x xs ih =>
    simp only [List.map_cons, List.sum_cons, ih]
    rw [← sum_map_add_distrib]

/-- Count of `v` in a list as a sum of indicators over positions. -/
theorem count_eq_range_sum (l : List Nat) (v : Nat) :
    List.count v l
      = ((List.range l.length).map
          (fun i => if l.getD i 0 = v then 1 else 0)).sum := by
  rw [count_eq_sum_map]
  congr 1
  apply List.ext_getElem
  · simp
  · intro i h1 h2
    simp only [List.getElem_map, List.getElem_range]
    rw [List.getD_eq_getElem l 0 (by simpa using h1)]

/-- Indicator sum over one processed column: the first `min R (n - s)` rows
hold the chunk `src[s:s+R]`, the rest hold the pad character 32. -/
theorem column_indicator_sum (src : List Nat) (v : Nat) :
    ∀ (R s : Nat),
    ((List.range R).map
        (fun r => if (if s + r < src.length then src.getD (s + r) 0 else 32) = v
          then 1 else 0)).sum
      = List.count v ((src.drop s).take R)
        + (R - ((src.drop s).take R).length) * (if 32 = v then 1 else 0) := by
  intro R
  induction R with
  | zero => intro s; simp
  | succ R ih =>
    intro s
    rw [List.range_succ, List.map_append, List.sum_append, ih s]
    have hdlen : (src.drop s).length = src.length - s := by simp
    by_cases hlt : s + R < src.length
    · have htake : (src.drop s).take (R + 1)
          = (src.drop s).take R ++ [src.getD (s + R) 0] := by
        rw [List.take_succ]
        congr 1
        have hR : R < (src.drop s).length := by omega
        rw [List.getElem?_eq_getElem hR]
        simp only [Option.toList_some]
        congr 1
        rw [List.getElem_drop, List.getD_eq_getElem src 0 (by omega)]
      rw [htake]
      simp only [List.count_append, List.length_append, List.map_cons,
        List.map_nil, List.sum_cons, List.sum_nil, List.count_cons,
        List.count_nil, List.length_take]
      have hlen : min R (src.length - s) = R := by omega
      rw [if_pos hlt]
      simp only [hdlen, hlen]
      by_cases hv : src.getD (s + R) 0 = v
      · simp [hv]
      · simp [hv, beq_iff_eq]
    · have htake : (src.drop s).take (R + 1) = (src.drop s).take R := by
        rw [List.take_of_length_le (by omega), List.take_of_length_le (by omega)]
      rw [htake]
      simp only [List.map_cons, List.map_nil, List.sum_cons, List.sum_nil,
        Nat.add_zero]
      rw [if_neg hlt]
      have hlen : ((src.drop s).take R).length = src.length - s := by
        rw [List.length_take]
        omega
      rw [hlen]
      by_cases hv : (32 : Nat) = v
      · rw [if_pos hv]
        simp only [Nat.mul_one]
        omega
      · rw [if_neg hv]
        simp

/-- Concatenating the `m` chunks of height `R` recovers a source segment. -/
theorem chunks_flatten (src : List Nat) (R : Nat) :
    ∀ m : Nat,
      ((List.range m).map (fun j => (src.drop (j * R)).take R)).flatten
        = src.take (m * R) := by
  intro m
  induction m with
  | zero => simp
  | succ m ih =>
    rw [List.range_succ, List.map_append, List.flatten_append, ih]
    simp only [List.map_cons, List.map_nil, List.flatten_cons, List.flatten_nil,
      List.append_nil]
    rw [show (m + 1) * R = m * R + R by ring, List.take_add]

theorem sum_map_mul_const (l : List Nat) (f : Nat → Nat) (w : Nat) :
    (l.map (fun x => f x * w)).sum = (l.map f).sum * w := by
  induction l with
  | nil => simp
  | cons x xs ih => simp [ih, Nat.add_mul]

/-- Grid characterization of `columnarCipher2` with a non-empty key: the
result is the row-major reading of an R×C grid whose column
`sortedKeyMap[j].idx` holds `src[j*R + r]` at row `r` (or the pad 32 beyond
the source). -/
theorem columnarCipher2_grid (src ikey : List Nat) (h : ikey.length ≠ 0) :
    ∃ grid : List (List Nat),
      columnarCipher2 src ikey = grid.flatten
      ∧ grid.length = (src.length + ikey.length - 1) / ikey.length
      ∧ (∀ r', r' < grid.length → (grid.getD r' []).length = ikey.length)
      ∧ (∀ j r', j < ikey.length →
          r' < (src.length + ikey.length - 1) / ikey.length →
          cellD grid r' ((sortedKeyMap ikey).getD j (0, 0)).2
            = if j * ((src.length + ikey.length - 1) / ikey.length) + r'
                  < src.length
              then src.getD
                (j * ((src.length + ikey.length - 1) / ikey.length) + r') 0
              else 32) := by
  set C := ikey.length with hC
  set R := (src.length + C - 1) / C with hR
  set init : List (List Nat) := List.replicate R (List.replicate C 32) with hinit
  have hinitlen : init.length = R := by simp [hinit]
  have hinitrows : ∀ r', r' < R → (init.getD r' []).length = C := by
    intro r' hr'
    rw [hinit, getD_replicate_lt hr', List.length_replicate]
  obtain ⟨o2, olen, orows, ooth, ocell⟩ :=
    colFold_spec src R C (sortedKeyMap ikey) init 0 (Nat.zero_le _) hinitlen
      hinitrows (sortedKeyMap_snd_lt ikey) (sortedKeyMap_snd_nodup ikey)
  refine ⟨((sortedKeyMap ikey).foldl (fun acc ki => fillColumn src R ki.2 acc)
      (init, 0)).1, ?_, ?_, ?_, ?_⟩
  · unfold columnarCipher2
    rw [if_neg h]
  · rw [olen]
  · intro r' hr'
    rw [orows r']
    rw [olen] at hr'
    exact hinitrows r' hr'
  · intro j r' hj hr'
    have hjlen : j < (sortedKeyMap ikey).length := by
      rw [sortedKeyMap_length]
      exact hj
    have hcell := ocell j r' hjlen hr'
    rw [hcell]
    have hsnd : ((sortedKeyMap ikey).getD j (0, 0)).2 < C := by
      rw [List.getD_eq_getElem _ _ hjlen]
      exact sortedKeyMap_snd_lt ikey _ (List.getElem_mem hjlen)
    have hinitcell : cellD init r' ((sortedKeyMap ikey).getD j (0, 0)).2 = 32 := by
      unfold cellD
      rw [hinit, getD_replicate_lt hr', getD_replicate_lt hsnd]
    rw [hinitcell]
    simp only [Nat.zero_add]

/-- C10: with a non-empty key the output of `columnarCipher2` has length
`ceil(len(src)/len(key)) * len(key)`, is never shorter than the input, and is
a rearrangement of the input characters plus exactly the padding amount of
space characters; with an empty key the input is returned unchanged. -/
theorem columnarCipher2_shape (s k : List Nat) :
    (k = [] → columnarCipher2 s k = s)
    ∧ (k ≠ [] →
        (columnarCipher2 s k).length
            = ((s.length + k.length - 1) / k.length) * k.length
        ∧ s.length ≤ (columnarCipher2 s k).length
        ∧ (columnarCipher2 s k).Perm
            (s ++ List.replicate ((columnarCipher2 s k).length - s.length) 32)) := by
  constructor
  · intro hk
    unfold columnarCipher2
    rw [if_pos (by simp [hk])]
  · intro hk
    have hC : k.length ≠ 0 := fun hz => hk (List.eq_nil_of_length_eq_zero hz)
    set C := k.length with hCdef
    set R := (s.length + C - 1) / C with hRdef
    set n := s.length with hndef
    obtain ⟨grid, heq, hglen0, hgrows0, hgcell0⟩ := columnarCipher2_grid s k hC
    have hglen : grid.length = R := hglen0
    have hgrows : ∀ r', r' < grid.length → (grid.getD r' []).length = C := hgrows0
    have hgcell : ∀ j r', j < C → r' < R →
        cellD grid r' ((sortedKeyMap k).getD j (0, 0)).2
          = if j * R + r' < n then s.getD (j * R + r') 0 else 32 := hgcell0
    have hmaplen : grid.map List.length = List.replicate R C := by
      apply List.ext_getElem
      · simp [hglen]
      · intro i h1 h2
        simp only [List.getElem_map, List.getElem_replicate]
        have hi : i < grid.length := by simpa using h1
        rw [← List.getD_eq_getElem grid [] hi]
        exact hgrows i hi
    have hlen : (columnarCipher2 s k).length = R * C := by
      rw [heq, List.length_flatten, hmaplen, List.sum_replicate, smul_eq_mul]
    have hmod' : C * R + (n + C - 1) % C = n + C - 1 := Nat.div_add_mod (n + C - 1) C
    have hmodlt : (n + C - 1) % C < C := Nat.mod_lt _ (by omega)
    have hcm : C * R = R * C := Nat.mul_comm _ _
    have hnle : n ≤ R * C := by omega
    refine ⟨hlen, by omega, ?_⟩
    rw [List.perm_iff_count]
    intro v
    have hcount1 : List.count v (columnarCipher2 s k)
        = ((List.range R).map
            (fun r => List.count v (grid.getD r []))).sum := by
      rw [heq, List.count_flatten]
      congr 1
      apply List.ext_getElem
      · simp [hglen]
      · intro i h1 h2
        have hi : i < grid.length := by simpa using h1
        simp only [List.getElem_map, List.getElem_range]
        rw [← List.getD_eq_getElem grid [] hi]
    have hcount2 : ∀ r, r < R →
        List.count v (grid.getD r [])
          = ((List.range C).map
              (fun c => if cellD grid r c = v then 1 else 0)).sum := by
      intro r hr
      have hrowlen : (grid.getD r []).length = C :=
        hgrows r (by rw [hglen]; exact hr)
      rw [count_eq_range_sum, hrowlen]
      rfl
    rw [hcount1, List.map_congr_left (fun r hr => hcount2 r (List.mem_range.mp hr)),
      sum_map_swap]
    have hreindex :
        ((List.range C).map
          (fun c => ((List.range R).map
            (fun r => if cellD grid r c = v then 1 else 0)).sum)).sum
        = ((List.range C).map
            (fun j => ((List.range R).map
              (fun r => if cellD grid r ((sortedKeyMap k).getD j (0, 0)).2 = v
                then 1 else 0)).sum)).sum := by
      have hperm := (sortedKeyMap_snd_perm k).map
        (fun c => ((List.range R).map
          (fun r => if cellD grid r c = v then 1 else 0)).sum)
      rw [← hperm.sum_eq]
      congr 1
      rw [List.map_map]
      apply List.ext_getElem
      · simp [sortedKeyMap_length]
      · intro j h1 h2
        have hj : j < (sortedKeyMap k).length := by simpa using h1
        simp only [List.getElem_map, List.getElem_range, Function.comp]
        rw [List.getD_eq_getElem _ _ hj]
    rw [hreindex]
    have hinner : ∀ j, j < C →
        ((List.range R).map
          (fun r => if cellD grid r ((sortedKeyMap k).getD j (0, 0)).2 = v
            then 1 else 0)).sum
        = List.count v ((s.drop (j * R)).take R)
          + (R - ((s.drop (j * R)).take R).length) * (if 32 = v then 1 else 0) := by
      intro j hj
      rw [List.map_congr_left (fun r hr => by
        rw [hgcell j r hj (List.mem_range.mp hr)])]
      exact column_indicator_sum s v R (j * R)
    rw [List.map_congr_left (fun j hj => hinner j (List.mem_range.mp hj)),
      sum_map_add_distrib, sum_map_mul_const]
    have hchunkcount :
        ((List.range C).map
          (fun j => List.count v ((s.drop (j * R)).take R))).sum
        = List.count v s := by
      have hfl := chunks_flatten s R C
      have hcnt : List.count v (((List.range C).map
          (fun j => (s.drop (j * R)).take R)).flatten) = List.count v s := by
        rw [hfl, List.take_of_length_le (by omega)]
      rw [List.count_flatten, List.map_map] at hcnt
      simp only [Function.comp_def] at hcnt
      exact hcnt
    have hchunklen :
        ((List.range C).map
          (fun j => ((s.drop (j * R)).take R).length)).sum = n := by
      have hfl := chunks_flatten s R C
      have hlenfl := congrArg List.length hfl
      rw [List.length_flatten, List.map_map] at hlenfl
      simp only [Function.comp_def] at hlenfl
      rw [List.length_take] at hlenfl
      rw [hlenfl]
      omega
    have hpadsum :
        ((List.range C).map
          (fun j => R - ((s.drop (j * R)).take R).length)).sum = R * C - n := by
      have hsum := sum_map_add_distrib (List.range C)
        (fun j => R - ((s.drop (j * R)).take R).length)
        (fun j => ((s.drop (j * R)).take R).length)
      have hcongr : ((List.range C).map
          (fun j => (R - ((s.drop (j * R)).take R).length)
            + ((s.drop (j * R)).take R).length)).sum
          = ((List.range C).map (fun _ => R)).sum := by
        congr 1
        apply List.map_congr_left
        intro j _
        have : ((s.drop (j * R)).take R).length ≤ R := by
          rw [List.length_take]
          omega
        omega
      have hconst : ((List.range C).map (fun _ => R)).sum = C * R := by
        rw [List.map_const']
        simp [List.sum_replicate, smul_eq_mul]
      rw [hcongr, hconst, hchunklen] at hsum
      omega
    rw [hchunkcount, hpadsum]
    rw [List.count_append, List.count_replicate, hlen]
    by_cases hv : (32 : Nat) = v
    · rw [if_pos hv, if_pos (by simpa using hv)]
      have : R * C - n = R * C - s.length := rfl
      omega
    · rw [if_neg hv, if_neg (by simpa using hv)]
      simp

/-- Witness for `columnarCipher2_shape`: empty key on the empty string, and
key `"ca"` on `"abcde"` (one pad space). -/
theorem columnarCipher2_shape_witness :
    columnarCipher2 [] [] = []
    ∧ (columnarCipher2 (asciiStr "abcde") (asciiStr "ca")).length
        = (((asciiStr "abcde").length + (asciiStr "ca").length - 1)
            / (asciiStr "ca").length) * (asciiStr "ca").length
    ∧ (columnarCipher2 (asciiStr "abcde") (asciiStr "ca")).Perm
        (asciiStr "abcde"
          ++ List.replicate
            ((columnarCipher2 (asciiStr "abcde") (asciiStr "ca")).length
              - (asciiStr "abcde").length) 32) :=
  ⟨(columnarCipher2_shape [] []).1 rfl,
    ((columnarCipher2_shape (asciiStr "abcde") (asciiStr "ca")).2
      (by decide)).1,
    ((columnarCipher2_shape (asciiStr "abcde") (asciiStr "ca")).2
      (by decide)).2.2⟩

/-! ### Modelled forward layer (spec 4.4) and the round-trip property (C3) -/

/-- Modelled from the spec: the forward seed shift (the inverse of the
rotation undone in step b of `reverseLayer`): each alphabet character is
rotated forward by the next PRNG draw mod 95. -/
def shiftFwdAux (charArray : List Nat) : Nat → List Nat → List Nat
  | _, [] => []
  | seed, c :: rest =>
    match charIndexOf charArray c with
    | none => c :: shiftFwdAux charArray seed rest
    | some cIdx =>
      let s' := prngNext seed
      charArray.getD ((cIdx + s' % 95) % 95) 0 :: shiftFwdAux charArray s' rest

/-- Modelled from the spec: the forward columnar transposition that
`columnarCipher2` inverts: write the text row-major into an R×C grid padded
with spaces, then read it column by column in the stable sorted key order. -/
def columnarFwd (src ikey : List Nat) : List Nat :=
  if ikey.length = 0 then src
  else
    let C := ikey.length
    let R := (src.length + C - 1) / C
    ((sortedKeyMap ikey).map
      (fun ki => (List.range R).map (fun r => src.getD (r * C + ki.2) 32))).flatten

/-- Modelled from the spec: `forwardLayer` test harness with the sub-step
order exactly as the spec documents it (shift, then transposition, then
substitution `alphabet[i] ↦ shuffled[i]`). -/
def forwardLayerSpecOrder (text genKey : List Nat) (iteration : Nat)
    (charArray : List Nat) : List Nat :=
  let layerKey := genKey ++ itoa iteration
  let subValues := seedShuffle2 charArray layerKey
  substitute (charArray.zip subValues)
    (columnarFwd (shiftFwdAux charArray (hash31 layerKey) text) layerKey)

/-- Modelled from the spec, amended: forward layer with the sub-steps in the
order substitution, transposition, shift — the composition that
`reverseLayer` (which undoes shift, transposition, substitution in that
order) actually inverts. -/
def forwardLayerAmended (text genKey : List Nat) (iteration : Nat)
    (charArray : List Nat) : List Nat :=
  let layerKey := genKey ++ itoa iteration
  let subValues := seedShuffle2 charArray layerKey
  shiftFwdAux charArray (hash31 layerKey)
    (columnarFwd (substitute (charArray.zip subValues) text) layerKey)

/-! ### Character-array lookup facts -/

theorem charIndexAux_range' :
    ∀ (m a i0 c : Nat), charIndexAux (List.range' a m) i0 c
      = if a ≤ c ∧ c < a + m then some (i0 + (c - a)) else none := by
  intro m
  induction m with
  | zero =>
    intro a i0 c
    rw [if_neg (by omega)]
    rfl
  | succ m ih =>
    intro a i0 c
    rw [List.range'_succ]
    show (if a = c then some i0 else charIndexAux (List.range' (a + 1) m) (i0 + 1) c)
      = _
    by_cases hac : a = c
    · rw [if_pos hac, if_pos (by omega)]
      congr 1
      omega
    · rw [if_neg hac, ih (a + 1) (i0 + 1) c]
      by_cases hin : a + 1 ≤ c ∧ c < a + 1 + m
      · rw [if_pos hin, if_pos (by omega)]
        congr 1
        omega
      · rw [if_neg hin, if_neg (by omega)]

theorem charArray95_eq_range' : charArray95 = List.range' 32 95 := by decide

theorem charIndexOf_charArray95 (c : Nat) :
    charIndexOf charArray95 c
      = if 32 ≤ c ∧ c < 127 then some (c - 32) else none := by
  unfold charIndexOf
  rw [charArray95_eq_range', charIndexAux_range']
  by_cases h : 32 ≤ c ∧ c < 127
  · rw [if_pos h, if_pos (by omega)]
    congr 1
    omega
  · rw [if_neg (by omega), if_neg h]

theorem charArray95_getD {k : Nat} (h : k < 95) : charArray95.getD k 0 = 32 + k := by
  rw [List.getD_eq_getElem _ _ (by simp [charArray95]; omega)]
  simp [charArray95]

theorem charArray95_mem_bounds : ∀ c ∈ charArray95, 32 ≤ c ∧ c ≤ 126 := by
  intro c hc
  rcases List.mem_map.mp hc with ⟨i, hi, rfl⟩
  have := List.mem_range.mp hi
  omega

theorem charArray95_nodup : charArray95.Nodup := by decide

/-! ### The seed-shift round-trip -/

set_option maxRecDepth 8000 in
theorem shift_roundtrip :
    ∀ (l : List Nat) (seed : Nat), (∀ c ∈ l, 32 ≤ c ∧ c ≤ 126) →
      shiftRevAux charArray95 seed (shiftFwdAux charArray95 seed l) = l := by
  intro l
  induction l with
  | nil => intro seed _; rfl
  | cons c rest ih =>
    intro seed h
    obtain ⟨hc1, hc2⟩ := h c (List.mem_cons_self c rest)
    have hrest : ∀ x ∈ rest, 32 ≤ x ∧ x ≤ 126 :=
      fun x hx => h x (List.mem_cons_of_mem c hx)
    have hlook : charIndexOf charArray95 c = some (c - 32) := by
      rw [charIndexOf_charArray95, if_pos (by omega)]
    have hrlt : prngNext seed % 95 < 95 := Nat.mod_lt _ (by omega)
    have hidx : (c - 32 + prngNext seed % 95) % 95 < 95 := Nat.mod_lt _ (by omega)
    have hstep1 : shiftFwdAux charArray95 seed (c :: rest)
        = charArray95.getD ((c - 32 + prngNext seed % 95) % 95) 0
            :: shiftFwdAux charArray95 (prngNext seed) rest := by
      simp only [shiftFwdAux, hlook]
    have hchar : charArray95.getD ((c - 32 + prngNext seed % 95) % 95) 0
        = 32 + (c - 32 + prngNext seed % 95) % 95 := charArray95_getD hidx
    have hlook2 : charIndexOf charArray95 (32 + (c - 32 + prngNext seed % 95) % 95)
        = some (32 + (c - 32 + prngNext seed % 95) % 95 - 32) := by
      rw [charIndexOf_charArray95, if_pos (by omega)]
    have hstep2 : shiftRevAux charArray95 seed
        ((32 + (c - 32 + prngNext seed % 95) % 95)
          :: shiftFwdAux charArray95 (prngNext seed) rest)
        = charArray95.getD
            ((32 + (c - 32 + prngNext seed % 95) % 95 - 32 + 95 - prngNext seed % 95)
              % 95) 0
            :: shiftRevAux charArray95 (prngNext seed)
                (shiftFwdAux charArray95 (prngNext seed) rest) := by
      simp only [shiftRevAux, hlook2]
    rw [hstep1, hchar, hstep2, ih (prngNext seed) hrest]
    have hfinal : (32 + (c - 32 + prngNext seed % 95) % 95 - 32 + 95
        - prngNext seed % 95) % 95 = c - 32 := by
      have hsimp : 32 + (c - 32 + prngNext seed % 95) % 95 - 32
          = (c - 32 + prngNext seed % 95) % 95 := by omega
      rw [hsimp]
      have h1 : (c - 32 + prngNext seed % 95) % 95 + 95 - prngNext seed % 95
          = (c - 32 + prngNext seed % 95) % 95 + (95 - prngNext seed % 95) := by
        omega
      rw [h1, Nat.mod_add_mod]
      have h2 : c - 32 + prngNext seed % 95 + (95 - prngNext seed % 95)
          = (c - 32) + 95 := by omega
      rw [h2, Nat.add_mod_right]
      exact Nat.mod_eq_of_lt (by omega)
    rw [hfinal, charArray95_getD (by omega)]
    have hc : 32 + (c - 32) = c := by omega
    rw [hc]

/-! ### Fisher-Yates shuffle permutes the alphabet -/

theorem set_set_swap_perm (l : List Nat) (i j : Nat) (hi : i < l.length)
    (hj : j < l.length) :
    ((l.set i (l.getD j 0)).set j (l.getD i 0)).Perm l := by
  rw [List.perm_iff_count]
  intro a
  have hc1 := count_set_add l i (l.getD j 0) 0 hi a
  have hj1 : j < (l.set i (l.getD j 0)).length := by
    rw [List.length_set]
    exact hj
  have hc2 := count_set_add (l.set i (l.getD j 0)) j (l.getD i 0) 0 hj1 a
  have hgd : (l.set i (l.getD j 0)).getD j 0 = l.getD j 0 := by
    by_cases hij : i = j
    · subst hij
      exact getD_set_self _ _ hi
    · exact getD_set_ne _ _ hij
  rw [hgd] at hc2
  omega

theorem fyFold_perm :
    ∀ (idxs : List Nat) (arr : List Nat) (seed : Nat),
      (∀ i ∈ idxs, i < arr.length) → ((fyFold arr seed idxs).1).Perm arr := by
  intro idxs
  induction idxs with
  | nil => intro arr seed _; exact List.Perm.refl _
  | cons i rest ih =>
    intro arr seed h
    have hi : i < arr.length := h i (List.mem_cons_self i rest)
    have hj : prngNext seed % (i + 1) < arr.length :=
      Nat.lt_of_lt_of_le (Nat.mod_lt _ (by omega)) hi
    show ((fyFold ((arr.set i (arr.getD (prngNext seed % (i + 1)) 0)).set
        (prngNext seed % (i + 1)) (arr.getD i 0)) (prngNext seed) rest).1).Perm arr
    have hperm1 := set_set_swap_perm arr i (prngNext seed % (i + 1)) hi hj
    have hlen1 : ((arr.set i (arr.getD (prngNext seed % (i + 1)) 0)).set
        (prngNext seed % (i + 1)) (arr.getD i 0)).length = arr.length := by
      simp [List.length_set]
    refine (ih _ (prngNext seed) ?_).trans hperm1
    intro x hx
    rw [hlen1]
    exact h x (List.mem_cons_of_mem i hx)

theorem seedShuffle2_perm (arr ikey : List Nat) :
    (seedShuffle2 arr ikey).Perm arr := by
  apply fyFold_perm
  intro i hi
  have h1 := List.mem_of_mem_drop (List.mem_reverse.mp hi)
  exact List.mem_range.mp h1

/-! ### Substitution round-trip -/

theorem assocFind_zip_getD :
    ∀ (a b : List Nat) (k : Nat), a.length = b.length → a.Nodup → k < a.length →
      assocFind (a.zip b) (a.getD k 0) = some (b.getD k 0) := by
  intro a
  induction a with
  | nil => intro b k _ _ hk; simp at hk
  | cons x a' ih =>
    intro b k hlen hnd hk
    cases b with
    | nil => simp at hlen
    | cons y b' =>
      cases k with
      | zero =>
        simp [assocFind, List.find?]
      | succ k =>
        have hk' : k < a'.length := by simpa using hk
        have hlen' : a'.length = b'.length := by simpa using hlen
        have hnd' : a'.Nodup := hnd.of_cons
        have hxne : x ≠ a'.getD k 0 := by
          intro hx
          have hmem : a'.getD k 0 ∈ a' := by
            rw [List.getD_eq_getElem a' 0 hk']
            exact List.getElem_mem hk'
          rw [← hx] at hmem
          exact (List.nodup_cons.mp hnd).1 hmem
        simp only [List.zip_cons_cons, List.getD_cons_succ]
        show assocFind ((x, y) :: a'.zip b') (a'.getD k 0) = some (b'.getD k 0)
        unfold assocFind
        rw [List.find?_cons_of_neg _ (by simpa using hxne)]
        exact ih b' k hlen' hnd' hk'

theorem substitute_length (pairs : List (Nat × Nat)) (l : List Nat) :
    (substitute pairs l).length = l.length := List.length_map l _

/-- One-character substitution round-trip through a shuffled alphabet. -/
theorem substitute_char_roundtrip (sv : List Nat) (hperm : sv.Perm charArray95)
    (c : Nat) (hc1 : 32 ≤ c) (hc2 : c ≤ 126) :
    (assocFind (sv.zip charArray95)
        ((assocFind (charArray95.zip sv) c).getD c)).getD
      ((assocFind (charArray95.zip sv) c).getD c) = c := by
  have hsvlen : sv.length = 95 := by
    have := hperm.length_eq
    simpa [charArray95] using this
  have hsvnd : sv.Nodup := hperm.nodup_iff.mpr charArray95_nodup
  have hk : c - 32 < 95 := by omega
  have hca : charArray95.getD (c - 32) 0 = c := by
    rw [charArray95_getD hk]
    omega
  have h1 := assocFind_zip_getD charArray95 sv (c - 32)
    (by simp [charArray95, hsvlen]) charArray95_nodup
    (by simp [charArray95]; omega)
  rw [hca] at h1
  rw [h1]
  simp only [Option.getD_some]
  have h2 : assocFind (sv.zip charArray95) (sv.getD (c - 32) 0)
      = some (charArray95.getD (c - 32) 0) :=
    assocFind_zip_getD sv charArray95 (c - 32)
      (by simp [charArray95, hsvlen]) hsvnd (by omega)
  rw [h2]
  simp only [Option.getD_some]
  exact hca

theorem substitute_roundtrip (sv : List Nat) (hperm : sv.Perm charArray95)
    (l : List Nat) (h : ∀ c ∈ l, 32 ≤ c ∧ c ≤ 126) :
    substitute (sv.zip charArray95) (substitute (charArray95.zip sv) l) = l := by
  unfold substitute
  rw [List.map_map]
  have hid : ∀ c ∈ l,
      ((fun c => (assocFind (sv.zip charArray95) c).getD c)
        ∘ (fun c => (assocFind (charArray95.zip sv) c).getD c)) c = c := by
    intro c hc
    obtain ⟨h1, h2⟩ := h c hc
    exact substitute_char_roundtrip sv hperm c h1 h2
  calc l.map _ = l.map id := List.map_congr_left hid
    _ = l := List.map_id l

/-- Bytes produced by the forward substitution stay in the alphabet. -/
theorem substitute_fwd_bounds (sv : List Nat) (hperm : sv.Perm charArray95)
    (l : List Nat) (h : ∀ c ∈ l, 32 ≤ c ∧ c ≤ 126) :
    ∀ c ∈ substitute (charArray95.zip sv) l, 32 ≤ c ∧ c ≤ 126 := by
  intro c hc
  rcases List.mem_map.mp hc with ⟨x, hx, rfl⟩
  obtain ⟨h1, h2⟩ := h x hx
  have hsvlen : sv.length = 95 := by
    have := hperm.length_eq
    simpa [charArray95] using this
  have hk : x - 32 < 95 := by omega
  have hca : charArray95.getD (x - 32) 0 = x := by
    rw [charArray95_getD hk]
    omega
  have hfind := assocFind_zip_getD charArray95 sv (x - 32)
    (by simp [charArray95, hsvlen]) charArray95_nodup
    (by simp [charArray95]; omega)
  rw [hca] at hfind
  rw [hfind]
  simp only [Option.getD_some]
  have hmem : sv.getD (x - 32) 0 ∈ sv := by
    rw [List.getD_eq_getElem sv 0 (by omega)]
    exact List.getElem_mem _
  exact charArray95_mem_bounds _ (hperm.mem_iff.mp hmem)

/-! ### Columnar transposition round-trip -/

theorem itoa_ne_nil (n : Nat) : itoa n ≠ [] := by
  have haux : ∀ (b fuel m : Nat) (ds : List Char),
      ds.length ≤ (Nat.toDigitsCore b fuel m ds).length := by
    intro b fuel
    induction fuel with
    | zero => intro m ds; simp [Nat.toDigitsCore]
    | succ fuel ih =>
      intro m ds
      simp only [Nat.toDigitsCore]
      split
      · simp
      · exact le_trans (by simp) (ih _ _)
  have haux2 : ∀ (b fuel m : Nat) (ds : List Char),
      ds.length + 1 ≤ (Nat.toDigitsCore b (fuel + 1) m ds).length := by
    intro b fuel m ds
    simp only [Nat.toDigitsCore]
    split
    · simp
    · exact le_trans (by simp) (haux b fuel _ _)
  intro hnil
  have hlen : (itoa n).length = 0 := by rw [hnil]; rfl
  unfold itoa Nat.toDigits at hlen
  rw [List.length_map] at hlen
  have := haux2 10 n n []
  omega

theorem flatten_getD_uniform :
    ∀ (bs : List (List Nat)) (R : Nat), (∀ b ∈ bs, b.length = R) →
      ∀ j r, j < bs.length → r < R →
        bs.flatten.getD (j * R + r) 0 = (bs.getD j []).getD r 0 := by
  intro bs
  induction bs with
  | nil => intro R _ j r hj _; simp at hj
  | cons b bs' ih =>
    intro R hlens j r hj hr
    have hb : b.length = R := hlens b (List.mem_cons_self b bs')
    cases j with
    | zero =>
      simp only [Nat.zero_mul, Nat.zero_add, List.flatten_cons, List.getD_cons_zero]
      rw [List.getD_append _ _ _ r (by omega)]
    | succ j =>
      simp only [List.flatten_cons, List.getD_cons_succ]
      rw [List.getD_append_right _ _ _ _ (by
        rw [hb]
        calc R ≤ (j + 1) * R := by nlinarith
          _ ≤ (j + 1) * R + r := by omega)]
      have harith : (j + 1) * R + r - b.length = j * R + r := by
        rw [hb]
        have : (j + 1) * R = j * R + R := by ring
        omega
      rw [harith]
      exact ih R (fun x hx => hlens x (List.mem_cons_of_mem b hx)) j r
        (by simpa using hj) hr

theorem columnarFwd_length (y K : List Nat) (hK : K.length ≠ 0) :
    (columnarFwd y K).length
      = K.length * ((y.length + K.length - 1) / K.length) := by
  unfold columnarFwd
  rw [if_neg hK]
  rw [List.length_flatten, List.map_map]
  simp only [Function.comp_def, List.length_map, List.length_range]
  rw [List.map_const', List.sum_replicate, smul_eq_mul, sortedKeyMap_length]

/-- Every byte of the forward transposition output is a source byte or the
pad 32. -/
theorem columnarFwd_bounds (y K : List Nat) (h : ∀ c ∈ y, 32 ≤ c ∧ c ≤ 126) :
    ∀ c ∈ columnarFwd y K, 32 ≤ c ∧ c ≤ 126 := by
  intro c hc
  unfold columnarFwd at hc
  by_cases hK : K.length = 0
  · rw [if_pos hK] at hc
    exact h c hc
  · rw [if_neg hK] at hc
    rcases List.mem_flatten.mp hc with ⟨blk, hblk, hcblk⟩
    rcases List.mem_map.mp hblk with ⟨ki, _, rfl⟩
    rcases List.mem_map.mp hcblk with ⟨r, _, rfl⟩
    rcases Nat.lt_or_ge (r * K.length + ki.2) y.length with hin | hout
    · have : y.getD (r * K.length + ki.2) 32 ∈ y := by
        rw [List.getD_eq_getElem y 32 hin]
        exact List.getElem_mem hin
      exact h _ this
    · rw [List.getD_eq_default _ _ hout]
      omega

/-- `columnarCipher2` inverts the forward columnar transposition on texts
whose length is a multiple of the (non-empty) key length. -/
theorem columnar_roundtrip (y K : List Nat) (hK : K.length ≠ 0)
    (hdvd : K.length ∣ y.length) :
    columnarCipher2 (columnarFwd y K) K = y := by
  set C := K.length with hC
  set n := y.length with hn
  set R := (n + C - 1) / C with hR
  have hRn : C * R = n := by
    obtain ⟨m, hm⟩ := hdvd
    have hRm : R = m := by
      rw [hR, hm]
      have h1 : C * m + C - 1 = (C - 1) + m * C := by
        have h2 : 1 ≤ C := by omega
        have h3 : C * m = m * C := Nat.mul_comm _ _
        omega
      rw [h1, Nat.add_mul_div_right _ _ (by omega), Nat.div_eq_of_lt (by omega)]
      omega
    rw [hRm]
    omega
  have hzlen : (columnarFwd y K).length = n := by
    rw [columnarFwd_length y K hK, ← hRn]
  have hzR : ((columnarFwd y K).length + C - 1) / C = R := by
    rw [hzlen]
  obtain ⟨grid, heq, hglen0, hgrows0, hgcell0⟩ :=
    columnarCipher2_grid (columnarFwd y K) K hK
  have hglen : grid.length = R := by rw [hglen0, hzR]
  have hgrows : ∀ r', r' < grid.length → (grid.getD r' []).length = C := hgrows0
  have hgcell : ∀ j r', j < C → r' < R →
      cellD grid r' ((sortedKeyMap K).getD j (0, 0)).2
        = if j * R + r' < (columnarFwd y K).length
          then (columnarFwd y K).getD (j * R + r') 0
          else 32 := by
    intro j r' hj hr'
    have := hgcell0 j r' hj (by rw [hzR]; exact hr')
    rw [hzR] at this
    exact this
  -- the j-th block of the forward output is column sortedKeyMap[j].idx
  have hblocklens : ∀ b ∈ (sortedKeyMap K).map
      (fun ki => (List.range R).map (fun r => y.getD (r * C + ki.2) 32)),
      b.length = R := by
    intro b hb
    rcases List.mem_map.mp hb with ⟨ki, _, rfl⟩
    simp
  have hfwd : columnarFwd y K = ((sortedKeyMap K).map
      (fun ki => (List.range R).map (fun r => y.getD (r * C + ki.2) 32))).flatten := by
    unfold columnarFwd
    rw [if_neg hK]
  have hzget : ∀ j r', j < C → r' < R →
      (columnarFwd y K).getD (j * R + r') 0
        = y.getD (r' * C + ((sortedKeyMap K).getD j (0, 0)).2) 0 := by
    intro j r' hj hr'
    rw [hfwd, flatten_getD_uniform _ R hblocklens j r'
      (by rw [List.length_map, sortedKeyMap_length]; exact hj) hr']
    have hjlen : j < (sortedKeyMap K).length := by
      rw [sortedKeyMap_length]
      exact hj
    have hmap : (((sortedKeyMap K).map
        (fun ki => (List.range R).map (fun r => y.getD (r * C + ki.2) 32))).getD j [])
        = (List.range R).map
            (fun r => y.getD (r * C + ((sortedKeyMap K).getD j (0, 0)).2) 32) := by
      rw [List.getD_eq_getElem _ _ (by simpa using hjlen), List.getElem_map,
        List.getD_eq_getElem _ _ hjlen]
    rw [hmap, List.getD_eq_getElem _ _ (by simpa using hr'), List.getElem_map,
      List.getElem_range]
    have hsnd : ((sortedKeyMap K).getD j (0, 0)).2 < C := by
      rw [List.getD_eq_getElem _ _ hjlen]
      exact sortedKeyMap_snd_lt K _ (List.getElem_mem hjlen)
    have hidx : r' * C + ((sortedKeyMap K).getD j (0, 0)).2 < n := by
      have h1 : r' * C ≤ (R - 1) * C := by
        apply Nat.mul_le_mul_right
        omega
      have h2 : (R - 1) * C + C = R * C := by
        have hR1 : 1 ≤ R := by
          by_contra hcon
          have : R = 0 := by omega
          rw [this] at hRn
          simp at hRn
          omega
        calc (R - 1) * C + C = (R - 1 + 1) * C := by ring
          _ = R * C := by congr 1; omega
      have h3 : R * C = n := by rw [← hRn]; ring
      omega
    rw [List.getD_eq_getElem y 32 hidx, List.getD_eq_getElem y 0 hidx]
  -- assemble: every cell r,c of the grid is y[r*C + c]
  have hcellall : ∀ r' c', r' < R → c' < C →
      cellD grid r' c' = y.getD (r' * C + c') 0 := by
    intro r' c' hr' hc'
    obtain ⟨j, hjlt, hjval⟩ := sortedKeyMap_snd_surj K c' (by rw [← hC]; exact hc')
    have hj : j < C := by
      rw [sortedKeyMap_length] at hjlt
      exact hjlt
    rw [← hjval, hgcell j r' hj hr', if_pos (by
      rw [hzlen]
      have h2 : (j + 1) * R ≤ C * R := by
        apply Nat.mul_le_mul_right
        omega
      have h3 : j * R + r' < (j + 1) * R := by
        have : (j + 1) * R = j * R + R := by ring
        omega
      omega), hzget j r' hj hr']
  -- flatten the grid row-major and compare with y
  have hflatlen : grid.flatten.length = R * C := by
    have hmaplen : grid.map List.length = List.replicate R C := by
      apply List.ext_getElem
      · simp [hglen]
      · intro i h1 h2
        simp only [List.getElem_map, List.getElem_replicate]
        have hi : i < grid.length := by simpa using h1
        rw [← List.getD_eq_getElem grid [] hi]
        exact hgrows i hi
    rw [List.length_flatten, hmaplen, List.sum_replicate, smul_eq_mul]
  rw [heq]
  apply List.ext_getElem
  · rw [hflatlen]
    have hcm := Nat.mul_comm R C
    omega
  · intro p h1 h2
    have hpn : p < n := by
      rw [hflatlen] at h1
      have : R * C = n := by rw [← hRn]; ring
      omega
    have hrowlens : ∀ b ∈ grid, b.length = C := by
      intro b hb
      rcases List.mem_iff_getElem.mp hb with ⟨i, hi, rfl⟩
      rw [← List.getD_eq_getElem grid [] hi]
      exact hgrows i hi
    have hdiv : p / C < R := by
      apply Nat.div_lt_of_lt_mul
      have : R * C = n := by rw [← hRn]; ring
      omega
    have hmod : p % C < C := Nat.mod_lt _ (by omega)
    have hp : p = (p / C) * C + p % C := by
      have h5 := Nat.div_add_mod p C
      have h6 := Nat.mul_comm C (p / C)
      omega
    have hget : grid.flatten.getD ((p / C) * C + p % C) 0
        = (grid.getD (p / C) []).getD (p % C) 0 :=
      flatten_getD_uniform grid C hrowlens (p / C) (p % C)
        (by rw [hglen]; exact hdiv) hmod
    rw [← List.getD_eq_getElem grid.flatten 0 h1, ← List.getD_eq_getElem y 0 h2]
    rw [hp, hget]
    have := hcellall (p / C) (p % C) hdiv hmod
    unfold cellD at this
    rw [this]

set_option maxRecDepth 40000 in
/-- C3 counterexample: with the forward sub-step order as the spec documents
it (shift, then transposition, then substitution), `reverseLayer` does not
invert the forward layer even on a text whose length (10) is a multiple of
the layer key length (2): key `"k"`, layer 1, text `"HelloWorld"`. -/
theorem forwardLayerSpecOrder_not_inverted :
    reverseLayer (forwardLayerSpecOrder (asciiStr "HelloWorld") (asciiStr "k")
      1 charArray95) (asciiStr "k") 1 charArray95 ≠ asciiStr "HelloWorld" := by
  decide

/-- C3 (amended): `reverseLayer` inverts the forward layer whose sub-steps
run in the order substitution, transposition, shift, on any text drawn from
the 95-symbol alphabet whose length is a multiple of the layer-key length
(`len(genKey) + len(itoa layer)`); without that divisibility the round trip
appends transposition padding.  This holds for every key and layer index,
in particular the claim's key lengths 1, 6, 40 and layers 1, 2, 3. -/
theorem reverseLayer_inverts_amended_forward (genKey : List Nat) (i : Nat)
    (text : List Nat) (hchars : ∀ c ∈ text, 32 ≤ c ∧ c ≤ 126)
    (hdvd : (genKey ++ itoa i).length ∣ text.length) :
    reverseLayer (forwardLayerAmended text genKey i charArray95) genKey i
      charArray95 = text := by
  have hK : (genKey ++ itoa i).length ≠ 0 := by
    rw [List.length_append]
    intro hz
    exact itoa_ne_nil i (List.eq_nil_of_length_eq_zero (by omega))
  have hperm : (seedShuffle2 charArray95 (genKey ++ itoa i)).Perm charArray95 :=
    seedShuffle2_perm _ _
  show substitute ((seedShuffle2 charArray95 (genKey ++ itoa i)).zip charArray95)
      (columnarCipher2
        (shiftRevAux charArray95 (hash31 (genKey ++ itoa i))
          (shiftFwdAux charArray95 (hash31 (genKey ++ itoa i))
            (columnarFwd
              (substitute
                (charArray95.zip (seedShuffle2 charArray95 (genKey ++ itoa i)))
                text)
              (genKey ++ itoa i))))
        (genKey ++ itoa i)) = text
  rw [shift_roundtrip _ _
    (columnarFwd_bounds _ _ (substitute_fwd_bounds _ hperm text hchars))]
  rw [columnar_roundtrip _ _ hK (by rw [substitute_length]; exact hdvd)]
  exact substitute_roundtrip _ hperm text hchars

set_option maxRecDepth 40000 in
/-- Witness for `reverseLayer_inverts_amended_forward` at key `"k"`, layer 1,
text `"HelloWorld"` (length 10, a multiple of the layer-key length 2). -/
theorem reverseLayer_inverts_amended_forward_witness :
    (∀ c ∈ asciiStr "HelloWorld", 32 ≤ c ∧ c ≤ 126)
    ∧ ((asciiStr "k" ++ itoa 1).length ∣ (asciiStr "HelloWorld").length)
    ∧ reverseLayer
        (forwardLayerAmended (asciiStr "HelloWorld") (asciiStr "k") 1 charArray95)
        (asciiStr "k") 1 charArray95 = asciiStr "HelloWorld" :=
  ⟨by decide, by decide,
    reverseLayer_inverts_amended_forward (asciiStr "k") 1 (asciiStr "HelloWorld")
      (by decide) (by decide)⟩

/-! ### A small regex engine (Go `regexp` leftmost-first matching) for
`extractClientKey` (clientkey.go) -/

/-- Regular-expression syntax needed by the six obfuscation patterns:
literals, single-character classes, concatenation and Kleene star. -/
inductive RE : Type
  | eps : RE
  | lit : Nat → RE
  | cls : (Nat → Bool) → RE
  | seq : RE → RE → RE
  | star : RE → RE

/-- `r+` as `r r*`. -/
def plusRE (r : RE) : RE := RE.seq r (RE.star r)

/-- Concatenation of a literal string. -/
def lits (s : String) : RE :=
  s.data.foldr (fun ch r => RE.seq (RE.lit ch.toNat) r) RE.eps

/-- Concatenation of a pattern list. -/
def seqs (l : List RE) : RE := l.foldr RE.seq RE.eps

/-- Backtracking matcher in continuation style with Perl/Go preference order:
a greedy star first tries to consume one more repetition.  `none` from the
continuation triggers backtracking; the fuel only bounds recursion depth. -/
def matchK : Nat → RE → List Nat → (List Nat → Option (List Nat)) →
    Option (List Nat)
  | 0, _, _, _ => none
  | _ + 1, RE.eps, s, k => k s
  | _ + 1, RE.lit _, [], _ => none
  | _ + 1, RE.lit c, x :: xs, k => if x = c then k xs else none
  | _ + 1, RE.cls _, [], _ => none
  | _ + 1, RE.cls p, x :: xs, k => if p x then k xs else none
  | fuel + 1, RE.seq a b, s, k => matchK fuel a s (fun s' => matchK fuel b s' k)
  | fuel + 1, RE.star r, s, k =>
    match matchK fuel r s (fun s' => matchK fuel (RE.star r) s' k) with
    | some res => some res
    | none => k s

/-- Length of the (greedy, leftmost-first) match of `r` at the start of `s`. -/
def matchLen (r : RE) (s : List Nat) : Option Nat :=
  (matchK (s.length + 400) r s some).map (fun rest => s.length - rest.length)

/-- Model of Go `FindString`: the leftmost match of `r` in `s` (`none` when
there is no match; the six patterns cannot match the empty string, where Go
returns `""`). -/
def reFind (r : RE) : List Nat → Option (List Nat)
  | [] =>
    match matchLen r [] with
    | some _ => some []
    | none => none
  | x :: rest =>
    match matchLen r (x :: rest) with
    | some n => some ((x :: rest).take n)
    | none => reFind r rest

/-- Class `[a-zA-Z0-9]`. -/
def isAlnum (c : Nat) : Bool :=
  (48 ≤ c && c ≤ 57) || (65 ≤ c && c ≤ 90) || (97 ≤ c && c ≤ 122)

/-- Class `\s` of Go regexp: `[\t\n\f\r ]`. -/
def isWs (c : Nat) : Bool := c = 9 || c = 10 || c = 12 || c = 13 || c = 32

/-- Class `[^>]`. -/
def isNotGt (c : Nat) : Bool := !(c = 62)

/-- Class `[xyz]`. -/
def isXyz (c : Nat) : Bool := c = 120 || c = 121 || c = 122

/-- Class `["']`. -/
def isQuote2 (c : Nat) : Bool := c = 34 || c = 39

/-- Class `` ["'`] `` (the Go source writes the backtick as `\x60`). -/
def isQuote3 (c : Nat) : Bool := c = 34 || c = 39 || c = 96

/-- Pattern 1: `<meta name="_gg_fb" content="[a-zA-Z0-9]+">`. -/
def patMeta : RE :=
  seqs [lits "<meta name=\"_gg_fb\" content=\"", plusRE (RE.cls isAlnum),
    lits "\">"]

/-- Pattern 2: `<!--\s+_is_th:[0-9a-zA-Z]+\s+-->`. -/
def patComment : RE :=
  seqs [lits "<!--", plusRE (RE.cls isWs), lits "_is_th:",
    plusRE (RE.cls isAlnum), plusRE (RE.cls isWs), lits "-->"]

/-- One `[xyz]:\s+["'][a-zA-Z0-9]+["']` field of the lk_db pattern. -/
def lkField : RE :=
  seqs [RE.cls isXyz, lits ":", plusRE (RE.cls isWs), RE.cls isQuote2,
    plusRE (RE.cls isAlnum), RE.cls isQuote2]

/-- Pattern 3:
`<script>window\._lk_db\s+=\s+\{[xyz]: "..", [xyz]: "..", [xyz]: ".."\};</script>`. -/
def patLkDb : RE :=
  seqs [lits "<script>window._lk_db", plusRE (RE.cls isWs), lits "=",
    plusRE (RE.cls isWs), lits "\x7b", lkField, lits ",", plusRE (RE.cls isWs),
    lkField, lits ",", plusRE (RE.cls isWs), lkField, lits "\x7d;</script>"]

/-- Pattern 4: `<div\s+data-dpi="[0-9a-zA-Z]+"\s+[^>]*></div>`. -/
def patDiv : RE :=
  seqs [lits "<div", plusRE (RE.cls isWs), lits "data-dpi=\"",
    plusRE (RE.cls isAlnum), lits "\"", plusRE (RE.cls isWs),
    RE.star (RE.cls isNotGt), lits "></div>"]

/-- Pattern 5: `<script nonce="[0-9a-zA-Z]+">`. -/
def patNonce : RE :=
  seqs [lits "<script nonce=\"", plusRE (RE.cls isAlnum), lits "\">"]

/-- Pattern 6: `<script>window\._xy_ws = ['"\x60][0-9a-zA-Z]+['"\x60];</script>`. -/
def patXyWs : RE :=
  seqs [lits "<script>window._xy_ws = ", RE.cls isQuote3,
    plusRE (RE.cls isAlnum), RE.cls isQuote3, lits ";</script>"]

/-- The six obfuscation patterns, in the order the Go code tries them. -/
def ckPatterns : List RE :=
  [patMeta, patComment, patLkDb, patDiv, patNonce, patXyWs]

/-- General key regex `"[a-zA-Z0-9]+"`. -/
def keyRe : RE := seqs [RE.lit 34, plusRE (RE.cls isAlnum), RE.lit 34]

/-- Comment-pattern key regex `:[a-zA-Z0-9]+ ` (note the trailing space). -/
def commentKeyRe : RE := seqs [RE.lit 58, plusRE (RE.cls isAlnum), RE.lit 32]

/-- Part regex `x:\s+"[a-zA-Z0-9]+"` of the lk_db extraction. -/
def lkxRe : RE :=
  seqs [RE.lit 120, RE.lit 58, plusRE (RE.cls isWs), RE.lit 34,
    plusRE (RE.cls isAlnum), RE.lit 34]

/-- Part regex `y:\s+"[a-zA-Z0-9]+"`. -/
def lkyRe : RE :=
  seqs [RE.lit 121, RE.lit 58, plusRE (RE.cls isWs), RE.lit 34,
    plusRE (RE.cls isAlnum), RE.lit 34]

/-- Part regex `z:\s+"[a-zA-Z0-9]+"`. -/
def lkzRe : RE :=
  seqs [RE.lit 122, RE.lit 58, plusRE (RE.cls isWs), RE.lit 34,
    plusRE (RE.cls isAlnum), RE.lit 34]

/-- Byte-level model of Go `strings.TrimSpace` (ASCII whitespace). -/
def trimSpace (l : List Nat) : List Nat :=
  ((l.dropWhile (fun c => c = 9 || c = 10 || c = 11 || c = 12 || c = 13 || c = 32)).reverse.dropWhile
    (fun c => c = 9 || c = 10 || c = 11 || c = 12 || c = 13 || c = 32)).reverse

/-- Model of `strings.Trim(val, "\"")`: strip double quotes from both ends. -/
def trimQuotes (l : List Nat) : List Nat :=
  ((l.dropWhile (fun c => c = 34)).reverse.dropWhile (fun c => c = 34)).reverse

/-- Model of `strings.TrimPrefix(keyMatch, ":")`: drop one leading colon. -/
def dropColonHead (l : List Nat) : List Nat :=
  match l with
  | 58 :: rest => rest
  | _ => l

/-- Error cases of `extractClientKey`, one per distinct error message. -/
inductive CKError : Type
  | notFound
  | commentKeyFailed
  | lkDbBuildFailed
  | lkDbValueFailed
  | valueFailed
deriving DecidableEq

/-- First pattern (by index) whose `FindString` is non-empty, with its match
(the loop over `patterns` in `extractClientKey`). -/
def firstMatchAux : List RE → List Nat → Nat → Option (Nat × List Nat)
  | [], _, _ => none
  | p :: ps, html, i =>
    match reFind p html with
    | some m => some (i, m)
    | none => firstMatchAux ps html (i + 1)

/-- Index and match of the first matching obfuscation pattern. -/
def firstMatch (ps : List RE) (html : List Nat) : Option (Nat × List Nat) :=
  firstMatchAux ps html 0

/-- Per-pattern extraction of `extractClientKey` from the matched region
(the `switch matchIdx` statement): pattern index 1 uses the unquoted
colon/space extraction, index 2 concatenates the x, y, z parts in that fixed
order, all others take the first double-quoted alphanumeric token. -/
def extractFromPattern (i : Nat) (m : List Nat) : Except CKError (List Nat) :=
  match i with
  | 1 =>
    match reFind commentKeyRe m with
    | none => Except.error CKError.commentKeyFailed
    | some km => Except.ok (trimSpace (dropColonHead km))
  | 2 =>
    match reFind lkxRe m with
    | none => Except.error CKError.lkDbBuildFailed
    | some px =>
      match reFind keyRe px with
      | none => Except.error CKError.lkDbValueFailed
      | some vx =>
        match reFind lkyRe m with
        | none => Except.error CKError.lkDbBuildFailed
        | some py =>
          match reFind keyRe py with
          | none => Except.error CKError.lkDbValueFailed
          | some vy =>
            match reFind lkzRe m with
            | none => Except.error CKError.lkDbBuildFailed
            | some pz =>
              match reFind keyRe pz with
              | none => Except.error CKError.lkDbValueFailed
              | some vz =>
                Except.ok (trimQuotes vx ++ trimQuotes vy ++ trimQuotes vz)
  | _ =>
    match reFind keyRe m with
    | none => Except.error CKError.valueFailed
    | some v => Except.ok (trimQuotes v)

/-- `extractClientKey` from clientkey.go: try the six patterns in order and
extract the key from the first match; `NotFound` exactly when no pattern
matches anywhere in the document. -/
def extractClientKey (html : List Nat) : Except CKError (List Nat) :=
  match firstMatch ckPatterns html with
  | none => Except.error CKError.notFound
  | some (i, m) => extractFromPattern i m

/-! ### Properties of `extractClientKey` (C7, C8) -/

deriving instance DecidableEq for Except

theorem extractFromPattern_ne_notFound (i : Nat) (m : List Nat) :
    extractFromPattern i m ≠ Except.error CKError.notFound := by
  unfold extractFromPattern
  split
  · split <;> simp
  · split
    · simp
    · split
      · simp
      · split
        · simp
        · split
          · simp
          · split
            · simp
            · split <;> simp
  · split <;> simp

/-- C7 counterexample: in `"<!--\n_is_th:ABC\n-->"` the comment pattern (the
second in priority order) matches the whole document, yet the key `ABC` is
not returned: the key extraction regex requires a space after the key, so the
call fails with the comment-extraction error rather than returning the key of
the first matching pattern. -/
theorem extractClientKey_comment_newline_fails :
    firstMatch ckPatterns (asciiStr "<!--\n_is_th:ABC\n-->")
      = some (1, asciiStr "<!--\n_is_th:ABC\n-->")
    ∧ extractClientKey (asciiStr "<!--\n_is_th:ABC\n-->")
      = Except.error CKError.commentKeyFailed := by
  constructor
  · decide
  · decide

/-- C7 (amended): the six patterns are tried in fixed priority order and the
result depends only on the first pattern that matches and its matched region
(so it is independent of position and later patterns are never consulted);
the key is returned when that pattern's extraction step also succeeds — HTML
matching both the meta pattern (1) and the lk_db pattern (3) yields the meta
value — and the `NotFound` error occurs exactly when none of the six
patterns matches. -/
theorem extractClientKey_priority :
    (∀ html : List Nat,
      extractClientKey html = Except.error CKError.notFound
        ↔ firstMatch ckPatterns html = none)
    ∧ (∀ (html : List Nat) (i : Nat) (m : List Nat),
        firstMatch ckPatterns html = some (i, m) →
        extractClientKey html = extractFromPattern i m)
    ∧ extractClientKey (asciiStr
        "<script>window._lk_db = \x7bx: \"AA\", y: \"BB\", z: \"CC\"\x7d;</script><meta name=\"_gg_fb\" content=\"metakey1\">")
      = Except.ok (asciiStr "metakey1") := by
  refine ⟨?_, ?_, by decide⟩
  · intro html
    unfold extractClientKey
    cases h : firstMatch ckPatterns html with
    | none => simp
    | some im =>
      simp only []
      constructor
      · intro habs
        exact absurd habs (extractFromPattern_ne_notFound im.1 im.2)
      · intro habs
        exact Option.noConfusion habs
  · intro html i m h
    unfold extractClientKey
    rw [h]

/-- Witness for `extractClientKey_priority`: no pattern matches in `"x"`;
the nonce pattern decides the result for `<script nonce="n0n0">`. -/
theorem extractClientKey_priority_witness :
    extractClientKey (asciiStr "x") = Except.error CKError.notFound
    ∧ extractClientKey (asciiStr "<script nonce=\"n0n0\">")
        = extractFromPattern 4 (asciiStr "<script nonce=\"n0n0\">") :=
  ⟨(extractClientKey_priority.1 (asciiStr "x")).mpr (by decide),
    extractClientKey_priority.2.1 (asciiStr "<script nonce=\"n0n0\">") 4
      (asciiStr "<script nonce=\"n0n0\">") (by decide)⟩

/-- C8 counterexample: with the fields appearing literally in the order z, y,
x (values `AA`, `BB`, `CC`), the extracted key is `CCBBAA` — the values in
fixed field-name order x, y, z — not the literal-order concatenation
`AABBCC`. -/
theorem extractClientKey_lkdb_name_order :
    extractClientKey (asciiStr
        "<script>window._lk_db = \x7bz: \"AA\", y: \"BB\", x: \"CC\"\x7d;</script>")
      = Except.ok (asciiStr "CCBBAA")
    ∧ asciiStr "CCBBAA" ≠ asciiStr "AABBCC" := by
  constructor
  · decide
  · decide

/-- C8 (amended): whenever the lk_db pattern is the first match, the key is
the concatenation of the quoted x, y and z field values in that fixed
field-name order — the order of `lkDbParts` — regardless of the order in
which the fields appear in the matched object. -/
theorem extractClientKey_lkdb_concat (html m px vx py vy pz vz : List Nat)
    (h : firstMatch ckPatterns html = some (2, m))
    (hx : reFind lkxRe m = some px) (hvx : reFind keyRe px = some vx)
    (hy : reFind lkyRe m = some py) (hvy : reFind keyRe py = some vy)
    (hz : reFind lkzRe m = some pz) (hvz : reFind keyRe pz = some vz) :
    extractClientKey html
      = Except.ok (trimQuotes vx ++ trimQuotes vy ++ trimQuotes vz) := by
  unfold extractClientKey
  rw [h]
  simp only [extractFromPattern, hx, hvx, hy, hvy, hz, hvz]

/-- Witness for `extractClientKey_lkdb_concat` on the z, y, x document. -/
theorem extractClientKey_lkdb_concat_witness :
    extractClientKey (asciiStr
        "<script>window._lk_db = \x7bz: \"AA\", y: \"BB\", x: \"CC\"\x7d;</script>")
      = Except.ok (trimQuotes (asciiStr "\"CC\"") ++ trimQuotes (asciiStr "\"BB\"")
          ++ trimQuotes (asciiStr "\"AA\"")) :=
  extractClientKey_lkdb_concat
    (asciiStr "<script>window._lk_db = \x7bz: \"AA\", y: \"BB\", x: \"CC\"\x7d;</script>")
    (asciiStr "<script>window._lk_db = \x7bz: \"AA\", y: \"BB\", x: \"CC\"\x7d;</script>")
    (asciiStr "x: \"CC\"") (asciiStr "\"CC\"")
    (asciiStr "y: \"BB\"") (asciiStr "\"BB\"")
    (asciiStr "z: \"AA\"") (asciiStr "\"AA\"")
    (by decide) (by decide) (by decide) (by decide) (by decide) (by decide)
    (by decide)

/-! ### Stream URL selection (megacloud.go, C9) -/

/-- Model of `strings.Contains`: substring infix check. -/
def startsWithL : List Nat → List Nat → Bool
  | _, [] => true
  | [], _ :: _ => false
  | x :: xs, y :: ys => x = y && startsWithL xs ys

/-- Substring containment (`strings.Contains(s, sub)`). -/
def containsSub : List Nat → List Nat → Bool
  | [], sub => sub.isEmpty
  | x :: rest, sub => startsWithL (x :: rest) sub || containsSub rest sub

/-- One candidate source (`source` struct in megacloud.go): file URL and
container/quality hint. -/
structure SourceEntry : Type where
  file : List Nat
  type : List Nat
deriving DecidableEq

/-- Selection loop of `Extract` step 6: starting from the first entry's URL,
take the URL of the first entry whose `File` contains the preferred quality. -/
def selectLoop (cur : List Nat) (pq : List Nat) : List SourceEntry → List Nat
  | [] => cur
  | s :: rest => if containsSub s.file pq then s.file else selectLoop cur pq rest

/-- Stream-URL selection of `Extract` (megacloud.go lines 130-137); the
empty-sources case is unreachable, `Extract` fails with `NoSources` first. -/
def selectStream (sources : List SourceEntry) (pq : List Nat) : List Nat :=
  match sources with
  | [] => []
  | s0 :: _ => selectLoop s0.file pq sources

/-- Modelled from the spec (C9's reading of step 7): prefer the first entry
whose type or filename contains the preferred quality. -/
def selectStreamClaimed (sources : List SourceEntry) (pq : List Nat) : List Nat :=
  match sources with
  | [] => []
  | s0 :: _ =>
    ((sources.find?
      (fun s => containsSub s.file pq || containsSub s.type pq)).getD s0).file

/-- C9 counterexample: with sources
`[{file: "a.m3u8", type: "720"}, {file: "b720.m3u8", type: "hls"}]` and
preferred quality `"720"`, the claimed type-or-filename rule selects
`a.m3u8` (type matches) but the code inspects only the `File` field and
returns `b720.m3u8`. -/
theorem selectStream_ignores_type :
    selectStream
        [⟨asciiStr "a.m3u8", asciiStr "720"⟩, ⟨asciiStr "b720.m3u8", asciiStr "hls"⟩]
        (asciiStr "720")
      = asciiStr "b720.m3u8"
    ∧ selectStreamClaimed
        [⟨asciiStr "a.m3u8", asciiStr "720"⟩, ⟨asciiStr "b720.m3u8", asciiStr "hls"⟩]
        (asciiStr "720")
      = asciiStr "a.m3u8"
    ∧ asciiStr "b720.m3u8" ≠ asciiStr "a.m3u8" := by
  refine ⟨by decide, by decide, by decide⟩

/-- C9 (amended): for every non-empty source list the selected URL is the
`File` of the first entry whose `File` (the `type` field is never consulted)
contains the preferred quality as a substring, falling back to the first
entry's URL when no entry matches. -/
theorem selectStream_first_file_match (s0 : SourceEntry) (rest : List SourceEntry)
    (pq : List Nat) :
    selectStream (s0 :: rest) pq
      = (((s0 :: rest).find? (fun s => containsSub s.file pq)).getD s0).file := by
  have hloop : ∀ (l : List SourceEntry) (cur : List Nat),
      selectLoop cur pq l = match l.find? (fun s => containsSub s.file pq) with
        | some s => s.file
        | none => cur := by
    intro l
    induction l with
    | nil => intro cur; rfl
    | cons s rest ih =>
      intro cur
      unfold selectLoop
      by_cases hc : containsSub s.file pq
      · rw [if_pos hc, List.find?_cons_of_pos rest hc]
      · rw [if_neg hc, List.find?_cons_of_neg rest (by simpa using hc), ih cur]
  show selectLoop s0.file pq (s0 :: rest) = _
  rw [hloop (s0 :: rest) s0.file]
  cases h : (s0 :: rest).find? (fun s => containsSub s.file pq) with
  | none => rfl
  | some s => rfl

end Lobster
